import Mathlib

/-!
Verification development for `xtract_attachment.py`, a utility that extracts
base64-encoded attachments from Italian electronic-invoice XML documents.

The Python source works by textual pattern matching with `re` (verbose mode),
base64 decoding via `base64.b64decode` (CPython `binascii.a2b_base64`,
non-strict mode), and plain file I/O.  The definitions below are a shallow
embedding of that code:

* text is `List Char`; the specific regular expressions of the source are
  embedded as deterministic scanning functions that reproduce the leftmost
  match / non-greedy / greedy-with-backtracking semantics of the concrete
  patterns used in the source (`<\s*Tag\s*>` etc.);
* `base64.b64decode` is embedded following CPython's `binascii.a2b_base64`
  table-driven loop (non-strict mode, as called by `base64.b64decode` with
  `validate=False`), with errors as `Except`;
* the file system is an explicit state (an association list of paths to
  byte contents plus read-side query functions), and `stderr` is a list of
  diagnostic lines threaded through the pipeline.

Whitespace (`\s`) is modelled as the six ASCII whitespace characters,
matching Python's `\s` on ASCII input.
-/

/-- Python regex `\s` on ASCII characters: space, tab, newline, carriage
return, vertical tab, form feed. -/
def isSpc (c : Char) : Bool :=
  c = ' ' || c = '\t' || c = '\n' || c = '\r' || c = Char.ofNat 11 || c = Char.ofNat 12

/-- Match a literal character sequence at the front of the input, returning
the remainder on success. -/
def matchLit : List Char → List Char → Option (List Char)
  | [], s => some s
  | _ :: _, [] => none
  | c :: cs, x :: xs => if x = c then matchLit cs xs else none

/-- Skip the maximal whitespace run at the front of the input.  This models a
greedy `\s*` that is followed by a non-whitespace literal: for such patterns
greedy matching with backtracking is equivalent to maximal munch. -/
def skipWS : List Char → List Char
  | [] => []
  | c :: cs => if isSpc c then skipWS cs else c :: cs

/-- Length of the maximal whitespace run at the front of the input. -/
def wsLen : List Char → Nat
  | [] => 0
  | c :: cs => if isSpc c then wsLen cs + 1 else 0

/-- Match the opening tag pattern `<\s*NAME\s*>` at the front of the input
(the tag names of the source all begin with a non-whitespace character, so
the greedy `\s*` runs are deterministic maximal munches). -/
def matchOpenTag (name : List Char) : List Char → Option (List Char)
  | [] => none
  | c :: s =>
    if c = '<' then
      match matchLit name (skipWS s) with
      | none => none
      | some r =>
        match skipWS r with
        | [] => none
        | d :: r2 => if d = '>' then some r2 else none
    else none

/-- Match the closing tag pattern `<\s*/\s*NAME\s*>` at the front of the
input. -/
def matchCloseTag (name : List Char) : List Char → Option (List Char)
  | [] => none
  | c :: s =>
    if c = '<' then
      match skipWS s with
      | [] => none
      | d :: s2 =>
        if d = '/' then
          match matchLit name (skipWS s2) with
          | none => none
          | some r =>
            match skipWS r with
            | [] => none
            | e :: r2 => if e = '>' then some r2 else none
        else none
    else none

/-- The tag name `Allegati` of `regex['allegati']`. -/
def allegatiName : List Char := ['A', 'l', 'l', 'e', 'g', 'a', 't', 'i']

/-- The tag name `NomeAttachment` of `regex['nome']`. -/
def nomeName : List Char :=
  ['N', 'o', 'm', 'e', 'A', 't', 't', 'a', 'c', 'h', 'm', 'e', 'n', 't']

/-- The tag name `FormatoAttachment` of `regex['formato']`. -/
def formatoName : List Char :=
  ['F', 'o', 'r', 'm', 'a', 't', 'o', 'A', 't', 't', 'a', 'c', 'h', 'm', 'e', 'n', 't']

/-- The tag name `Attachment` of `regex['allegato']`. -/
def attachmentName : List Char := ['A', 't', 't', 'a', 'c', 'h', 'm', 'e', 'n', 't']

theorem matchLit_length {lit : List Char} :
    ∀ {s r : List Char}, matchLit lit s = some r → r.length ≤ s.length := by
  induction lit with
  | nil =>
    intro s r h
    simp only [matchLit, Option.some.injEq] at h
    subst h
    exact Nat.le_refl _
  | cons c cs ih =>
    intro s r h
    cases s with
    | nil => simp [matchLit] at h
    | cons x xs =>
      simp only [matchLit] at h
      split at h
      · exact Nat.le_trans (ih h) (Nat.le_succ _)
      · exact absurd h (by simp)

theorem skipWS_length : ∀ s : List Char, (skipWS s).length ≤ s.length := by
  intro s
  induction s with
  | nil => simp [skipWS]
  | cons c cs ih =>
    simp only [skipWS]
    split
    · exact Nat.le_trans ih (Nat.le_succ _)
    · simp

theorem matchOpenTag_length {name s r : List Char}
    (h : matchOpenTag name s = some r) : r.length + 2 ≤ s.length := by
  cases s with
  | nil => simp [matchOpenTag] at h
  | cons c cs =>
    simp only [matchOpenTag] at h
    split at h
    · split at h
      · exact absurd h (by simp)
      next r1 h1 =>
        split at h
        next h2 => exact absurd h (by simp)
        next d r2 h2 =>
          split at h
          · cases h
            have e1 : r1.length ≤ cs.length :=
              Nat.le_trans (matchLit_length h1) (skipWS_length cs)
            have e2 : (skipWS r1).length ≤ r1.length := skipWS_length r1
            rw [h2] at e2
            simp only [List.length_cons] at e2 ⊢
            omega
          · exact absurd h (by simp)
    · exact absurd h (by simp)

theorem matchCloseTag_length {name s r : List Char}
    (h : matchCloseTag name s = some r) : r.length + 2 ≤ s.length := by
  cases s with
  | nil => simp [matchCloseTag] at h
  | cons c cs =>
    simp only [matchCloseTag] at h
    split at h
    · split at h
      next h0 => exact absurd h (by simp)
      next d s2 h0 =>
        split at h
        · split at h
          · exact absurd h (by simp)
          next r1 h1 =>
            split at h
            next h2 => exact absurd h (by simp)
            next e r2 h2 =>
              split at h
              · cases h
                have e0 : (skipWS cs).length ≤ cs.length := skipWS_length cs
                rw [h0] at e0
                have e1 : r1.length ≤ s2.length :=
                  Nat.le_trans (matchLit_length h1) (skipWS_length s2)
                have e2 : (skipWS r1).length ≤ r1.length := skipWS_length r1
                rw [h2] at e2
                simp only [List.length_cons] at e0 e2 ⊢
                omega
              · exact absurd h (by simp)
        · exact absurd h (by simp)
    · exact absurd h (by simp)

/-- Scan for the first position where the closing tag `<\s*/\s*NAME\s*>`
matches, returning the characters before that position (the non-greedy
`(.*?)` group of `regex['allegati']` under `re.DOTALL`) and the rest of the
input after the closing tag.  `none` when the closing tag matches nowhere. -/
def findCloseTag (name : List Char) : List Char → Option (List Char × List Char)
  | [] => none
  | c :: cs =>
    match matchCloseTag name (c :: cs) with
    | some r => some ([], r)
    | none =>
      match findCloseTag name cs with
      | some (g, r) => some (c :: g, r)
      | none => none

theorem findCloseTag_length {name : List Char} :
    ∀ {s : List Char} {g r : List Char},
      findCloseTag name s = some (g, r) → r.length < s.length := by
  intro s
  induction s with
  | nil => intro g r h; simp [findCloseTag] at h
  | cons c cs ih =>
    intro g r h
    simp only [findCloseTag] at h
    split at h
    next r1 h1 =>
      cases h
      have := matchCloseTag_length h1
      simp only [List.length_cons] at this ⊢
      omega
    next h1 =>
      split at h
      next g2 r2 h2 =>
        cases h
        have := ih h2
        simp only [List.length_cons]
        omega
      next h2 => exact absurd h (by simp)

/-- One match attempt of `regex['allegati']` at the current position: the
opening tag `<\s*Allegati\s*>`, then the non-greedy `(.*?)` group up to the
first position where the closing tag matches.  `none` when the attempt
fails (no opening tag here, or no closing tag anywhere after it). -/
def findBlock (s : List Char) : Option (List Char × List Char) :=
  (matchOpenTag allegatiName s).bind (fun r => findCloseTag allegatiName r)

theorem findBlock_length {s : List Char} {g rest : List Char}
    (h : findBlock s = some (g, rest)) : rest.length < s.length := by
  simp only [findBlock, Option.bind_eq_some] at h
  obtain ⟨r, hop, hcl⟩ := h
  have e1 := matchOpenTag_length hop
  have e2 := findCloseTag_length hcl
  omega

/-- The scanning loop of `regex['allegati'].findall(xml)`, with a fuel
argument for structural recursion (each step consumes at least one
character, so fuel at least the input length never runs out): repeatedly
scan left to right for the leftmost match of
`<\s*Allegati\s*>(.*?)<\s*/\s*Allegati\s*>` (verbose mode, `re.DOTALL` so
`.` matches newlines), collect the captured group of each match, and
continue scanning after the end of the previous match (non-overlapping
matches).  At a position where the match attempt fails, scanning advances
one character, exactly as `re` retries the pattern at the next index. -/
def findAllegatiFuel : Nat → List Char → List (List Char)
  | 0, _ => []
  | _, [] => []
  | f + 1, c :: cs =>
    match findBlock (c :: cs) with
    | some (g, rest) => g :: findAllegatiFuel f rest
    | none => findAllegatiFuel f cs

/-- `regex['allegati'].findall(xml)`: run the scanning loop with enough
fuel. -/
def findAllegati (s : List Char) : List (List Char) :=
  findAllegatiFuel s.length s

theorem findAllegatiFuel_congr :
    ∀ (f1 : Nat) {f2 : Nat} {s : List Char}, s.length ≤ f1 → s.length ≤ f2 →
      findAllegatiFuel f1 s = findAllegatiFuel f2 s := by
  intro f1
  induction f1 with
  | zero =>
    intro f2 s h1 _
    have : s = [] := List.length_eq_zero.mp (Nat.le_zero.mp h1)
    subst this
    cases f2 <;> simp [findAllegatiFuel]
  | succ f ih =>
    intro f2 s h1 h2
    cases s with
    | nil => cases f2 <;> simp [findAllegatiFuel]
    | cons c cs =>
      cases f2 with
      | zero => simp at h2
      | succ f2' =>
        simp only [findAllegatiFuel]
        simp only [List.length_cons] at h1 h2
        cases hb : findBlock (c :: cs) with
        | none => exact ih (by omega) (by omega)
        | some gr =>
          cases gr with
          | mk g rest =>
            have e := findBlock_length hb
            simp only [List.length_cons] at e
            show g :: findAllegatiFuel f rest = g :: findAllegatiFuel f2' rest
            exact congrArg _ (ih (by omega) (by omega))

theorem findAllegati_eq_fuel {f : Nat} {s : List Char} (h : s.length ≤ f) :
    findAllegati s = findAllegatiFuel f s := by
  unfold findAllegati
  exact findAllegatiFuel_congr s.length (Nat.le_refl _) h

/-- `list_attachments(file)` from the source: apply
`regex['allegati'].findall` to the document text and pair each captured
block with the document path. -/
def list_attachments (file : List Char × List Char) : List (List Char × List Char) :=
  (findAllegati file.2).map (fun a => (file.1, a))

/-- Whether the closing tag matches after skipping the (deterministic,
because the closing tag starts with the non-whitespace `<`) trailing `\s*`
of `regex['nome']` / `regex['formato']`. -/
def closeAfterWS (name : List Char) (t : List Char) : Bool :=
  (matchCloseTag name (skipWS t)).isSome

/-- The non-greedy bounded group `(.{1,lim}?)` of `regex['nome']` and
`regex['formato']` (no `re.DOTALL`, so `.` excludes newline), followed by
`\s*` and the closing tag: try the shortest group first, extending one
character at a time up to `lim` characters. -/
def tryGroup (name : List Char) : Nat → List Char → Option (List Char)
  | 0, _ => none
  | _ + 1, [] => none
  | b + 1, c :: t =>
    if c = '\n' then none
    else if closeAfterWS name t then some [c]
    else
      match tryGroup name b t with
      | some g => some (c :: g)
      | none => none

/-- The leading `\s*` of `regex['nome']` / `regex['formato']` before the
group is greedy: it first consumes `k` whitespace characters for the maximal
`k`, and on failure of the rest of the pattern backtracks to `k-1`, …, `0`. -/
def tryFromWS (name : List Char) (lim : Nat) (r : List Char) : Nat → Option (List Char)
  | 0 => tryGroup name lim r
  | k + 1 =>
    match tryGroup name lim (r.drop (k + 1)) with
    | some g => some g
    | none => tryFromWS name lim r k

/-- Attempt the part of `regex['nome']` / `regex['formato']` that follows
the opening tag: greedy `\s*`, then the non-greedy bounded group, then `\s*`
and the closing tag. -/
def afterOpen (name : List Char) (lim : Nat) (r : List Char) : Option (List Char) :=
  tryFromWS name lim r (wsLen r)

/-- `regex[...].search` for the patterns of shape
`<\s*NAME\s*>\s*(.{1,lim}?)\s*<\s*/\s*NAME\s*>`: try every start position
left to right and return the group captured by the first position that
matches. -/
def searchTag (name : List Char) (lim : Nat) : List Char → Option (List Char)
  | [] => none
  | c :: cs =>
    match matchOpenTag name (c :: cs) with
    | some r =>
      match afterOpen name lim r with
      | some g => some g
      | none => searchTag name lim cs
    | none => searchTag name lim cs

/-- Base64-alphabet-or-whitespace characters, the character class
`[a-zA-Z0-9+/=\s]` of `regex['allegato']`. -/
def b64Class (c : Char) : Bool :=
  ('a' ≤ c && c ≤ 'z') || ('A' ≤ c && c ≤ 'Z') || ('0' ≤ c && c ≤ '9') ||
    c = '+' || c = '/' || c = '=' || isSpc c

/-- The non-greedy group `([a-zA-Z0-9+/=\s]*?)` of `regex['allegato']`
followed directly by the closing tag: try the empty group first, then
extend while the characters stay inside the class. -/
def allegatoGroup : List Char → Option (List Char)
  | [] => none
  | c :: t =>
    if (matchCloseTag attachmentName (c :: t)).isSome then some []
    else if b64Class c then
      match allegatoGroup t with
      | some g => some (c :: g)
      | none => none
    else none

/-- `regex['allegato'].search`: leftmost match of
`<\s*Attachment\s*>([a-zA-Z0-9+/=\s]*?)<\s*/\s*Attachment\s*>`, returning
the captured payload text. -/
def searchAllegato : List Char → Option (List Char)
  | [] => none
  | c :: cs =>
    match matchOpenTag attachmentName (c :: cs) with
    | some r =>
      match allegatoGroup r with
      | some g => some g
      | none => searchAllegato cs
    | none => searchAllegato cs

/-- CPython `binascii` `table_a2b_base64`: the six-bit value of a base64
alphabet character, `none` for every other character (such characters are
skipped by the non-strict decoder; `'='` is handled separately). -/
def decVal (c : Char) : Option Nat :=
  if 'A' ≤ c && c ≤ 'Z' then some (c.toNat - 65)
  else if 'a' ≤ c && c ≤ 'z' then some (c.toNat - 71)
  else if '0' ≤ c && c ≤ '9' then some (c.toNat + 4)
  else if c = '+' then some 62
  else if c = '/' then some 63
  else none

/-- CPython `binascii_find_valid(ascii_data, ascii_len, 1)`: the next
character after the current one that the base64 table considers valid (the
table maps `'='` to 0, so padding counts as valid). -/
def findValid : List Char → Option Char
  | [] => none
  | c :: t => if c = '=' || (decVal c).isSome then some c else findValid t

/-- The text of `binascii.Error('Incorrect padding')`, the error raised by
the non-strict base64 decoder when data bits are left over at end of
input. -/
def incorrectPadding : List Char :=
  ['I', 'n', 'c', 'o', 'r', 'r', 'e', 'c', 't', ' ',
   'p', 'a', 'd', 'd', 'i', 'n', 'g']

/-- CPython `binascii.a2b_base64` in non-strict mode (the call made by
`base64.b64decode(s)` with the default `validate=False`): characters outside
the alphabet are skipped; `'='` before quad position 2 is skipped; `'='` at
quad position 2 terminates decoding successfully only when the next valid
character is also `'='` and is otherwise skipped; `'='` at quad position 3
terminates decoding successfully; if data bits are left over at end of
input (quad position not 0), the decode fails with `Incorrect padding`.
`qp` is the position within the current 4-character quad and `lc` the
pending data bits (`leftchar`). -/
def a2b : List Char → Nat → Nat → Except (List Char) (List Nat)
  | [], qp, _ => if qp = 0 then .ok [] else .error incorrectPadding
  | c :: t, qp, lc =>
    if c = '=' then
      if qp < 2 then a2b t qp lc
      else if qp = 2 then
        match findValid t with
        | some d => if d = '=' then .ok [] else a2b t qp lc
        | none => a2b t qp lc
      else .ok []
    else
      match decVal c with
      | none => a2b t qp lc
      | some v =>
        let lc2 := lc * 64 + v
        if qp = 0 then a2b t 1 lc2
        else if qp = 1 then (a2b t 2 (lc2 % 16)).map (fun bs => lc2 / 16 :: bs)
        else if qp = 2 then (a2b t 3 (lc2 % 4)).map (fun bs => lc2 / 4 :: bs)
        else (a2b t 0 0).map (fun bs => lc2 :: bs)

/-- `base64.b64decode` on the payload text captured by `regex['allegato']`
(all such characters are ASCII, so the `str`-to-`bytes` step never fails):
run the non-strict `a2b_base64` loop from quad position 0. -/
def b64decode (s : List Char) : Except (List Char) (List Nat) :=
  a2b s 0 0

/-- The base64 alphabet character for a six-bit value, as used by
`base64.b64encode`. -/
def encChar (n : Nat) : Char :=
  if n < 26 then Char.ofNat (65 + n)
  else if n < 52 then Char.ofNat (97 + n - 26)
  else if n < 62 then Char.ofNat (48 + n - 52)
  else if n = 62 then '+'
  else '/'

/-- `base64.b64encode` (CPython `binascii.b2a_base64` without the trailing
newline): encode three bytes into four alphabet characters; a final single
byte becomes two characters plus `==`, a final byte pair three characters
plus `=`. -/
def b64encode : List Nat → List Char
  | [] => []
  | [a] => [encChar (a / 4), encChar (a % 4 * 16), '=', '=']
  | [a, b] => [encChar (a / 4), encChar (a % 4 * 16 + b / 16), encChar (b % 16 * 4), '=']
  | a :: b :: c :: rest =>
    encChar (a / 4) :: encChar (a % 4 * 16 + b / 16) ::
      encChar (b % 16 * 4 + c / 64) :: encChar (c % 64) :: b64encode rest

/-- `os.path.join(p, q)` for POSIX paths as used by the source (second
component a directory entry name or a derived file name). -/
def pathJoin (p q : List Char) : List Char :=
  if q.head? = some '/' then q
  else if p = [] then q
  else if p.getLast? = some '/' then p ++ q
  else p ++ '/' :: q

/-- `posixpath.split(p)`: split after the last `/`; the head keeps no
trailing slashes unless it consists only of slashes. -/
def pathSplit (p : List Char) : List Char × List Char :=
  let rev := p.reverse
  let tailRev := rev.takeWhile (fun c => !(c == '/'))
  let headAll := (rev.drop tailRev.length).reverse
  let head :=
    if headAll.isEmpty || headAll.all (fun c => c == '/') then headAll
    else (headAll.reverse.dropWhile (fun c => c == '/')).reverse
  (head, tailRev.reverse)

/-- The name part of `os.path.splitext(b)` for a slash-free base name `b`
(as produced by `os.path.split`): cut at the last dot, except that a name
whose characters before the last dot are all dots is returned whole. -/
def splitextFst (b : List Char) : List Char :=
  let extLen := (b.reverse.takeWhile (fun c => !(c == '.'))).length
  if extLen = b.length then b
  else
    let d := b.length - extLen - 1
    if (b.take d).all (fun c => c == '.') then b else b.take d

/-- Decimal digits of a natural number (fuel variant for structural
recursion; at least `n + 1` units of fuel never run out). -/
def natDigitsFuel : Nat → Nat → List Char
  | 0, _ => []
  | f + 1, n =>
    if n < 10 then [Char.ofNat (48 + n)]
    else natDigitsFuel f (n / 10) ++ [Char.ofNat (48 + n % 10)]

/-- Decimal digits of a natural number, as Python's `str`/f-string
formatting of a nonnegative `int`. -/
def natDigits (n : Nat) : List Char :=
  natDigitsFuel (n + 1) n

/-- Python `str.lower` restricted to ASCII letters (the format tag of real
documents); other characters are unchanged. -/
def lowerChar (c : Char) : Char :=
  if 'A' ≤ c && c ≤ 'Z' then Char.ofNat (c.toNat + 32) else c

/-- The double-quote character. -/
def dq : Char := Char.ofNat 34

/-- The single-quote character. -/
def sglq : Char := Char.ofNat 39

/-- The diagnostic line
`Error decoding "<nome>" in "<basename>" : <ex>` printed by
`yield_decoded_attachment` when the payload tag is missing or decoding
fails. -/
def errLine (nome basename ex : List Char) : List Char :=
  ['E', 'r', 'r', 'o', 'r', ' ', 'd', 'e', 'c', 'o', 'd', 'i', 'n', 'g', ' ']
    ++ dq :: nome ++ dq :: [' ', 'i', 'n', ' ']
    ++ dq :: basename ++ dq :: [' ', ':', ' '] ++ ex

/-- The message of the `AttributeError` raised by `None.group(1)` when
`regex['allegato'].search` found nothing:
`'NoneType' object has no attribute 'group'`. -/
def attrErrMsg : List Char :=
  sglq :: ['N', 'o', 'n', 'e', 'T', 'y', 'p', 'e'] ++ sglq ::
    [' ', 'o', 'b', 'j', 'e', 'c', 't', ' ', 'h', 'a', 's', ' ', 'n', 'o',
     ' ', 'a', 't', 't', 'r', 'i', 'b', 'u', 't', 'e', ' ']
    ++ sglq :: ['g', 'r', 'o', 'u', 'p'] ++ [sglq]

/-- The 5-byte PDF signature `%PDF-` compared against the head of the
decoded payload. -/
def pdfSig : List Nat := [37, 80, 68, 70, 45]

/-- The literal `_allegato_` infixed in fallback attachment names. -/
def allegatoInfix : List Char :=
  ['_', 'a', 'l', 'l', 'e', 'g', 'a', 't', 'o', '_']

/-- The extension fallback literal `formatoSconosciuto`. -/
def formatoSconosciuto : List Char :=
  ['f', 'o', 'r', 'm', 'a', 't', 'o', 'S', 'c', 'o', 'n', 'o', 's', 'c',
   'i', 'u', 't', 'o']

/-- Name resolution of `yield_decoded_attachment`: the group captured by
`regex['nome'].search(attachment)`, or on failure (`AttributeError` on
`None.group(1)`) the fallback
`<basename-without-extension>_allegato_<idx+1>`. -/
def resolvedNome (idx : Nat) (path att : List Char) : List Char :=
  match searchTag nomeName 60 att with
  | some g => g
  | none => splitextFst (pathSplit path).2 ++ allegatoInfix ++ natDigits (idx + 1)

/-- Extension resolution of `yield_decoded_attachment`: `pdf` when the
first five decoded bytes are the PDF signature, else the lower-cased group
of `regex['formato'].search(attachment)` when that matches, else
`formatoSconosciuto`. -/
def resolvedExt (att : List Char) (bytes : List Nat) : List Char :=
  if bytes.take 5 = pdfSig then ['p', 'd', 'f']
  else
    match searchTag formatoName 10 att with
    | some g => g.map lowerChar
    | none => formatoSconosciuto

/-- One iteration of the loop of `yield_decoded_attachment` on the block at
(0-based) enumeration index `idx`: either a materialized attachment
`(dirname, filename, bytes)` or nothing, together with the diagnostic lines
printed for this block. -/
def processBlock (idx : Nat) (pb : List Char × List Char) :
    Option (List Char × List Char × List Nat) × List (List Char) :=
  let path := pb.1
  let att := pb.2
  let dirname := (pathSplit path).1
  let basename := (pathSplit path).2
  let nome := resolvedNome idx path att
  match searchAllegato att with
  | none => (none, [errLine nome basename attrErrMsg])
  | some payload =>
    match b64decode payload with
    | .error ex => (none, [errLine nome basename ex])
    | .ok bytes =>
      if bytes = [] then (none, [])
      else (some (dirname, nome ++ '.' :: resolvedExt att bytes, bytes), [])

/-- The loop of `yield_decoded_attachment` over `enumerate(attachments)`
starting at index `idx`: concatenate the yields and the diagnostics of the
successive blocks. -/
def yieldDecodedAux : Nat → List (List Char × List Char) →
    List (List Char × List Char × List Nat) × List (List Char)
  | _, [] => ([], [])
  | idx, pb :: rest =>
    let r := processBlock idx pb
    let rr := yieldDecodedAux (idx + 1) rest
    (match r.1 with
     | some o => o :: rr.1
     | none => rr.1,
     r.2 ++ rr.2)

/-- `yield_decoded_attachment(attachments)` from the source, with the
yielded records in the first component and the `stderr` lines in the
second. -/
def yield_decoded_attachment (attachments : List (List Char × List Char)) :
    List (List Char × List Char × List Nat) × List (List Char) :=
  yieldDecodedAux 0 attachments

/-- Result of `os.listdir` on a path: a listing when the path is a
directory, `NotADirectoryError` when it exists but is not a directory,
`FileNotFoundError` (with its message) when it does not exist. -/
inductive ListdirResult where
  | entries (names : List (List Char))
  | notADir
  | notFound (msg : List Char)

/-- Read side of the file system as queried by `yield_xml_files`:
`os.path.abspath`, `os.listdir`, `os.path.isfile` and
`open(...).read()` (the latter failing with an exception message on
unreadable files). -/
structure ReadFS where
  abspath : List Char → List Char
  listdir : List Char → ListdirResult
  isFile : List Char → Bool
  readFile : List Char → Except (List Char) (List Char)

/-- The extension literal `.xml`. -/
def dotXml : List Char := ['.', 'x', 'm', 'l']

/-- The `files` computation of `yield_xml_files` (lines 90–98): the
generator over `os.listdir` keeps the direct entries that are regular files
with the `.xml` ending, joined to the base path; `NotADirectoryError`
falls back to the single file `[path]`; `FileNotFoundError` is fatal
(reported, then `exit(1)`), here an `Except.error`. -/
def candidateFiles (fs : ReadFS) (path : List Char) :
    Except (List Char) (List (List Char)) :=
  match fs.listdir path with
  | .entries names =>
    .ok ((names.filter
        (fun i => fs.isFile (pathJoin path i) && dotXml.isSuffixOf i)).map
      (pathJoin path))
  | .notADir => .ok [path]
  | .notFound msg => .error msg

/-- The reading loop of `yield_xml_files`: open and read each candidate
file, yielding `(path, text)` and skipping (with a diagnostic) files whose
read raises. -/
def readDocs (fs : ReadFS) : List (List Char) →
    List (List Char × List Char) × List (List Char)
  | [] => ([], [])
  | p :: rest =>
    let r := readDocs fs rest
    match fs.readFile p with
    | .ok txt => ((p, txt) :: r.1, r.2)
    | .error e => (r.1, e :: r.2)

/-- `yield_xml_files(path)` from the source: `Except.error msg` models the
`FileNotFoundError` path that prints `msg` and terminates the process with
exit code 1; otherwise the yielded `(path, text)` pairs together with the
diagnostics for unreadable files. -/
def yield_xml_files (fs : ReadFS) (path : List Char) :
    Except (List Char) (List (List Char × List Char) × List (List Char)) :=
  match candidateFiles fs (fs.abspath path) with
  | .error msg => .error msg
  | .ok files => .ok (readDocs fs files)

/-- Write side of the file system: the stored files (an association list,
most recent binding first) and which paths the process may create or write
(openings on other paths raise, e.g. `PermissionError`). -/
structure WriteFS where
  files : List (List Char × List Nat)
  allowWrite : List Char → Bool

/-- Current content of a path in the store. -/
def lookupFile (st : WriteFS) (p : List Char) : Option (List Nat) :=
  st.files.lookup p

/-- Store new content for a path (truncating any previous content). -/
def setFile (st : WriteFS) (p : List Char) (bs : List Nat) : WriteFS :=
  { st with files := (p, bs) :: st.files }

/-- The literal `low` of the `--safety` option. -/
def lowLit : List Char := ['l', 'o', 'w']

/-- Message of the `FileExistsError` raised by `open(path, 'xb')` on an
existing path. -/
def existsErrLine (p : List Char) : List Char :=
  ['[', 'E', 'r', 'r', 'n', 'o', ' ', '1', '7', ']', ' ', 'F', 'i', 'l',
   'e', ' ', 'e', 'x', 'i', 's', 't', 's', ':', ' '] ++ p

/-- Message of the `PermissionError` (or other `OSError`) raised by `open`
on a path the process may not write. -/
def permErrLine (p : List Char) : List Char :=
  ['[', 'E', 'r', 'r', 'n', 'o', ' ', '1', '3', ']', ' ', 'P', 'e', 'r',
   'm', 'i', 's', 's', 'i', 'o', 'n', ' ', 'd', 'e', 'n', 'i', 'e', 'd',
   ':', ' '] ++ p

/-- Output path resolution of `write_attachment`: join the `outdir`
override, or else the attachment's recorded directory, with the attachment
file name. -/
def resolvedOutPath (att : List Char × List Char × List Nat)
    (outdir : Option (List Char)) : List Char :=
  match outdir with
  | some o => pathJoin o att.2.1
  | none => pathJoin att.1 att.2.1

/-- Body of `write_attachment`: open with mode `'wb'` exactly when
`safety == 'low'` and `'xb'` otherwise; `'xb'` raises `FileExistsError` on
an existing target; an unwritable target raises; every exception is caught
and printed.  Returns the new store and the diagnostics. -/
def write_attachment (st : WriteFS) (att : List Char × List Char × List Nat)
    (outdir : Option (List Char)) (safety : List Char) :
    WriteFS × List (List Char) :=
  let payload := att.2.2
  let outpath := resolvedOutPath att outdir
  if safety = lowLit then
    if st.allowWrite outpath then (setFile st outpath payload, [])
    else (st, [permErrLine outpath])
  else
    match lookupFile st outpath with
    | some _ => (st, [existsErrLine outpath])
    | none =>
      if st.allowWrite outpath then (setFile st outpath payload, [])
      else (st, [permErrLine outpath])

/-- The inner write loop of `main`: write each decoded attachment in turn,
threading the store. -/
def writeAll (outdir : Option (List Char)) (safety : List Char) :
    WriteFS → List (List Char × List Char × List Nat) →
      WriteFS × List (List Char)
  | st, [] => (st, [])
  | st, a :: rest =>
    let r1 := write_attachment st a outdir safety
    let r2 := writeAll outdir safety r1.1 rest
    (r2.1, r1.2 ++ r2.2)

/-- Processing of one document in `main`: locate the blocks, decode them,
write the results. -/
def processDoc (outdir : Option (List Char)) (safety : List Char)
    (st : WriteFS) (doc : List Char × List Char) : WriteFS × List (List Char) :=
  let r := yield_decoded_attachment (list_attachments doc)
  let w := writeAll outdir safety st r.1
  (w.1, r.2 ++ w.2)

/-- The document loop of `main`. -/
def processDocs (outdir : Option (List Char)) (safety : List Char) :
    WriteFS → List (List Char × List Char) → WriteFS × List (List Char)
  | st, [] => (st, [])
  | st, d :: rest =>
    let r1 := processDoc outdir safety st d
    let r2 := processDocs outdir safety r1.1 rest
    (r2.1, r1.2 ++ r2.2)

/-- `main()` from the source (with `path`, `outdir`, `safety` as delivered
by `argparse`): run the pipeline; the result is the process exit code, the
final file store and the `stderr` lines.  A missing input path prints the
`FileNotFoundError` and exits with code 1; every other run terminates
normally with exit code 0.  (Named `mainFn` because Lean reserves `main`
for an executable entry point.) -/
def mainFn (fs : ReadFS) (st : WriteFS) (path : List Char)
    (outdir : Option (List Char)) (safety : List Char) :
    Nat × WriteFS × List (List Char) :=
  match yield_xml_files fs path with
  | .error msg => (1, st, [msg])
  | .ok (docs, rdiags) =>
    let r := processDocs outdir safety st docs
    (0, r.1, rdiags ++ r.2)

theorem processBlock_no_payload_tag {att : List Char} (idx : Nat) (path : List Char)
    (h : searchAllegato att = none) :
    processBlock idx (path, att) =
      (none, [errLine (resolvedNome idx path att) (pathSplit path).2 attrErrMsg]) := by
  simp [processBlock, h]

theorem processBlock_decode_error {att p e : List Char} (idx : Nat) (path : List Char)
    (hp : searchAllegato att = some p) (he : b64decode p = .error e) :
    processBlock idx (path, att) =
      (none, [errLine (resolvedNome idx path att) (pathSplit path).2 e]) := by
  simp [processBlock, hp, he]

theorem processBlock_empty_payload {att p : List Char} (idx : Nat) (path : List Char)
    (hp : searchAllegato att = some p) (he : b64decode p = .ok []) :
    processBlock idx (path, att) = (none, []) := by
  simp [processBlock, hp, he]

theorem processBlock_ok {att p : List Char} {bytes : List Nat} (idx : Nat)
    (path : List Char) (hp : searchAllegato att = some p)
    (he : b64decode p = .ok bytes) (hne : bytes ≠ []) :
    processBlock idx (path, att) =
      (some ((pathSplit path).1,
             resolvedNome idx path att ++ '.' :: resolvedExt att bytes,
             bytes),
       []) := by
  simp [processBlock, hp, he, hne]

theorem yieldDecodedAux_cons (idx : Nat) (pb : List Char × List Char)
    (rest : List (List Char × List Char)) :
    yieldDecodedAux idx (pb :: rest) =
      ((match (processBlock idx pb).1 with
        | some o => o :: (yieldDecodedAux (idx + 1) rest).1
        | none => (yieldDecodedAux (idx + 1) rest).1),
       (processBlock idx pb).2 ++ (yieldDecodedAux (idx + 1) rest).2) := rfl

theorem yieldDecodedAux_append (l1 l2 : List (List Char × List Char)) :
    ∀ idx : Nat,
      yieldDecodedAux idx (l1 ++ l2) =
        ((yieldDecodedAux idx l1).1 ++ (yieldDecodedAux (idx + l1.length) l2).1,
         (yieldDecodedAux idx l1).2 ++ (yieldDecodedAux (idx + l1.length) l2).2) := by
  induction l1 with
  | nil => intro idx; simp [yieldDecodedAux]
  | cons pb rest ih =>
    intro idx
    simp only [List.cons_append, yieldDecodedAux_cons, ih (idx + 1),
      List.length_cons]
    have harith : idx + 1 + rest.length = idx + (rest.length + 1) := by omega
    rw [harith]
    cases hpb : (processBlock idx pb).1 with
    | none => simp
    | some o => simp

theorem processBlock_some_nonempty {idx : Nat} {pb : List Char × List Char}
    {o : List Char × List Char × List Nat} {d : List (List Char)}
    (h : processBlock idx pb = (some o, d)) : o.2.2 ≠ [] := by
  obtain ⟨path, att⟩ := pb
  cases hp : searchAllegato att with
  | none =>
    rw [processBlock_no_payload_tag idx path hp] at h
    simp at h
  | some p =>
    cases he : b64decode p with
    | error e =>
      rw [processBlock_decode_error idx path hp he] at h
      simp at h
    | ok bytes =>
      by_cases hb : bytes = []
      · subst hb
        rw [processBlock_empty_payload idx path hp he] at h
        simp at h
      · rw [processBlock_ok idx path hp he hb] at h
        simp only [Prod.mk.injEq, Option.some.injEq] at h
        obtain ⟨h1, _⟩ := h
        subst h1
        simpa using hb

/-- C2: for every attachment block whose payload tag is absent or whose
extracted payload fails base64 decoding, the decoder prints exactly one
diagnostic line `Error decoding "<name>" in "<basename>" : <error>` (with
the resolved name and the document's base name), materializes nothing for
that block, and processes the subsequent blocks unchanged. -/
theorem c2_decode_failure_single_diagnostic
    (idx : Nat) (path att : List Char) (rest : List (List Char × List Char))
    (h : searchAllegato att = none ∨
      ∃ p e, searchAllegato att = some p ∧ b64decode p = .error e) :
    ∃ ex, yieldDecodedAux idx ((path, att) :: rest) =
      ((yieldDecodedAux (idx + 1) rest).1,
       errLine (resolvedNome idx path att) (pathSplit path).2 ex ::
         (yieldDecodedAux (idx + 1) rest).2) := by
  rcases h with h | ⟨p, e, hp, he⟩
  · refine ⟨attrErrMsg, ?_⟩
    rw [yieldDecodedAux_cons, processBlock_no_payload_tag idx path h]
    simp
  · refine ⟨e, ?_⟩
    rw [yieldDecodedAux_cons, processBlock_decode_error idx path hp he]
    simp

theorem c2_witness :
    ∃ ex, yieldDecodedAux 0 [("/d/a.xml".data, "no payload here".data)] =
      ((yieldDecodedAux 1 []).1,
       errLine (resolvedNome 0 "/d/a.xml".data "no payload here".data)
           (pathSplit "/d/a.xml".data).2 ex ::
         (yieldDecodedAux 1 []).2) :=
  c2_decode_failure_single_diagnostic 0 "/d/a.xml".data "no payload here".data []
    (Or.inl (by decide))

/-- C3: a block whose payload decodes to zero bytes is dropped silently
(no yield, no diagnostic), and consequently every materialized attachment
carries a non-empty payload. -/
theorem c3_empty_payload_silent_drop :
    (∀ (idx : Nat) (path att p : List Char) (rest : List (List Char × List Char)),
        searchAllegato att = some p → b64decode p = .ok [] →
        yieldDecodedAux idx ((path, att) :: rest) = yieldDecodedAux (idx + 1) rest) ∧
    (∀ (idx : Nat) (l : List (List Char × List Char))
        (o : List Char × List Char × List Nat),
        o ∈ (yieldDecodedAux idx l).1 → o.2.2 ≠ []) := by
  constructor
  · intro idx path att p rest hp he
    rw [yieldDecodedAux_cons, processBlock_empty_payload idx path hp he]
    simp
  · intro idx l
    induction l generalizing idx with
    | nil =>
      intro o h
      simp [yieldDecodedAux] at h
    | cons pb rest ih =>
      intro o h
      rw [yieldDecodedAux_cons] at h
      cases hpb : processBlock idx pb with
      | mk fst snd =>
        rw [hpb] at h
        cases fst with
        | none => exact ih (idx + 1) o h
        | some o2 =>
          simp only [List.mem_cons] at h
          rcases h with h | h
          · subst h
            exact processBlock_some_nonempty hpb
          · exact ih (idx + 1) o h

theorem c3_witness :
    yieldDecodedAux 0 [("/d/a.xml".data,
        "<Attachment>  </Attachment>".data)] = yieldDecodedAux 1 [] :=
  (c3_empty_payload_silent_drop.1 0 "/d/a.xml".data
      "<Attachment>  </Attachment>".data "  ".data [] (by decide) rfl)

/-- C4: when the first five decoded bytes are the PDF signature `%PDF-`,
the resolved extension is `pdf` regardless of any format tag; the format
tag (lower-cased) is consulted only when the signature check fails, and
with neither the extension is `formatoSconosciuto`; the resolved extension
is the one that reaches the emitted filename. -/
theorem c4_pdf_signature_precedence :
    (∀ (att : List Char) (bytes : List Nat), bytes.take 5 = pdfSig →
        resolvedExt att bytes = ['p', 'd', 'f']) ∧
    (∀ (att : List Char) (bytes : List Nat) (g : List Char),
        bytes.take 5 ≠ pdfSig → searchTag formatoName 10 att = some g →
        resolvedExt att bytes = g.map lowerChar) ∧
    (∀ (att : List Char) (bytes : List Nat),
        bytes.take 5 ≠ pdfSig → searchTag formatoName 10 att = none →
        resolvedExt att bytes = formatoSconosciuto) ∧
    (∀ (idx : Nat) (path att p : List Char) (bytes : List Nat),
        searchAllegato att = some p → b64decode p = .ok bytes → bytes ≠ [] →
        processBlock idx (path, att) =
          (some ((pathSplit path).1,
                 resolvedNome idx path att ++ '.' :: resolvedExt att bytes,
                 bytes),
           [])) := by
  refine ⟨?_, ?_, ?_, ?_⟩
  · intro att bytes h
    simp [resolvedExt, h]
  · intro att bytes g h1 h2
    simp [resolvedExt, h1, h2]
  · intro att bytes h1 h2
    simp [resolvedExt, h1, h2]
  · intro idx path att p bytes hp he hne
    exact processBlock_ok idx path hp he hne

theorem c4_witness :
    resolvedExt "<FormatoAttachment>TXT</FormatoAttachment>".data
        [37, 80, 68, 70, 45, 1] = ['p', 'd', 'f'] ∧
    resolvedExt "<FormatoAttachment>TXT</FormatoAttachment>".data [1, 2] =
      ['t', 'x', 't'] ∧
    resolvedExt "nothing".data [1, 2] = formatoSconosciuto ∧
    processBlock 0 ("/d/a.xml".data, "<Attachment>JVBERi0x</Attachment>".data) =
      (some ((pathSplit "/d/a.xml".data).1,
             resolvedNome 0 "/d/a.xml".data "<Attachment>JVBERi0x</Attachment>".data
               ++ '.' :: resolvedExt "<Attachment>JVBERi0x</Attachment>".data
                 [37, 80, 68, 70, 45, 49],
             [37, 80, 68, 70, 45, 49]),
       []) :=
  ⟨c4_pdf_signature_precedence.1 _ _ (by decide),
   c4_pdf_signature_precedence.2.1 _ _ "TXT".data (by decide) (by decide),
   c4_pdf_signature_precedence.2.2.1 _ _ (by decide) (by decide),
   c4_pdf_signature_precedence.2.2.2 0 "/d/a.xml".data _ "JVBERi0x".data
     [37, 80, 68, 70, 45, 49] (by decide) rfl (by decide)⟩

/-- C5: a block without a matching name tag is named
`<document-basename-without-extension>_allegato_<i>` with `i` the 1-based
position of the block among the blocks of the same document (the block
after `pre.length` earlier blocks gets index `pre.length + 1`); in
particular the 2nd block of `invoice.xml` without name tags is named
`invoice_allegato_2`. -/
theorem c5_fallback_name :
    (∀ (pre : List (List Char × List Char)) (path att p : List Char)
        (bytes : List Nat) (rest : List (List Char × List Char)),
        searchTag nomeName 60 att = none →
        searchAllegato att = some p → b64decode p = .ok bytes → bytes ≠ [] →
        (yield_decoded_attachment (pre ++ (path, att) :: rest)).1 =
          (yield_decoded_attachment pre).1 ++
            ((pathSplit path).1,
             (splitextFst (pathSplit path).2 ++ allegatoInfix ++
                 natDigits (pre.length + 1)) ++ '.' :: resolvedExt att bytes,
             bytes) :: (yieldDecodedAux (pre.length + 1) rest).1) ∧
    ((yield_decoded_attachment (list_attachments ("/d/invoice.xml".data,
        ("<Allegati><Attachment>aGk=</Attachment></Allegati>" ++
         "<Allegati><Attachment>aGk=</Attachment></Allegati>").data))).1.map
      (fun o => o.2.1) =
      ["invoice_allegato_1.formatoSconosciuto".data,
       "invoice_allegato_2.formatoSconosciuto".data]) := by
  constructor
  · intro pre path att p bytes rest hn hp he hne
    show (yieldDecodedAux 0 (pre ++ (path, att) :: rest)).1 = _
    rw [yieldDecodedAux_append]
    simp only [Nat.zero_add]
    rw [yieldDecodedAux_cons, processBlock_ok pre.length path hp he hne]
    simp only [resolvedNome, hn]
    simp [yield_decoded_attachment]
  · decide

theorem c5_witness :
    (yield_decoded_attachment
        ([("/d/invoice.xml".data, "<Attachment>aGk=</Attachment>".data)] ++
          ("/d/invoice.xml".data, "<Attachment>aGk=</Attachment>".data) :: [])).1 =
      (yield_decoded_attachment
          [("/d/invoice.xml".data, "<Attachment>aGk=</Attachment>".data)]).1 ++
        ((pathSplit "/d/invoice.xml".data).1,
         (splitextFst (pathSplit "/d/invoice.xml".data).2 ++ allegatoInfix ++
             natDigits 2) ++
           '.' :: resolvedExt "<Attachment>aGk=</Attachment>".data [104, 105],
         [104, 105]) :: (yieldDecodedAux 2 []).1 :=
  c5_fallback_name.1 [("/d/invoice.xml".data, "<Attachment>aGk=</Attachment>".data)]
    "/d/invoice.xml".data "<Attachment>aGk=</Attachment>".data "aGk=".data
    [104, 105] [] (by decide) (by decide) rfl (by decide)

/-- C6: with safety `low` the writer overwrites an existing target
(afterwards the target holds the new payload, with no diagnostic); with any
other safety value (including the default `max`) an existing target makes
the write fail, leaving the store unchanged and printing one diagnostic;
any open failure likewise just prints a diagnostic; and the write loop
always continues with the remaining attachments whatever a write did. -/
theorem c6_overwrite_policy :
    (∀ (st : WriteFS) (att : List Char × List Char × List Nat)
        (outdir : Option (List Char)),
        st.allowWrite (resolvedOutPath att outdir) = true →
        write_attachment st att outdir lowLit =
          (setFile st (resolvedOutPath att outdir) att.2.2, []) ∧
        lookupFile (write_attachment st att outdir lowLit).1
            (resolvedOutPath att outdir) = some att.2.2) ∧
    (∀ (st : WriteFS) (att : List Char × List Char × List Nat)
        (outdir : Option (List Char)) (safety : List Char) (bs : List Nat),
        safety ≠ lowLit →
        lookupFile st (resolvedOutPath att outdir) = some bs →
        write_attachment st att outdir safety =
          (st, [existsErrLine (resolvedOutPath att outdir)])) ∧
    (∀ (st : WriteFS) (att : List Char × List Char × List Nat)
        (outdir : Option (List Char)) (safety : List Char),
        st.allowWrite (resolvedOutPath att outdir) = false →
        ∃ msg, write_attachment st att outdir safety = (st, [msg])) ∧
    (∀ (st : WriteFS) (a : List Char × List Char × List Nat)
        (rest : List (List Char × List Char × List Nat))
        (outdir : Option (List Char)) (safety : List Char),
        writeAll outdir safety st (a :: rest) =
          ((writeAll outdir safety (write_attachment st a outdir safety).1 rest).1,
           (write_attachment st a outdir safety).2 ++
             (writeAll outdir safety (write_attachment st a outdir safety).1 rest).2)) := by
  refine ⟨?_, ?_, ?_, ?_⟩
  · intro st att outdir hw
    refine ⟨by simp [write_attachment, hw], ?_⟩
    simp [write_attachment, hw, lookupFile, setFile]
  · intro st att outdir safety bs hs hl
    simp [write_attachment, hs, hl]
  · intro st att outdir safety hw
    by_cases hs : safety = lowLit
    · exact ⟨permErrLine (resolvedOutPath att outdir), by simp [write_attachment, hs, hw]⟩
    · cases hl : lookupFile st (resolvedOutPath att outdir) with
      | some bs =>
        exact ⟨existsErrLine (resolvedOutPath att outdir),
          by simp [write_attachment, hs, hl]⟩
      | none =>
        exact ⟨permErrLine (resolvedOutPath att outdir),
          by simp [write_attachment, hs, hl, hw]⟩
  · intro st a rest outdir safety
    rfl

theorem c6_witness :
    (write_attachment ⟨[(['o'], [5])], fun _ => true⟩ ([], ['o'], [9]) none lowLit =
        (setFile ⟨[(['o'], [5])], fun _ => true⟩
          (resolvedOutPath (([], ['o'], [9]) : List Char × List Char × List Nat) none) [9], []) ∧
      lookupFile (write_attachment ⟨[(['o'], [5])], fun _ => true⟩
          ([], ['o'], [9]) none lowLit).1
        (resolvedOutPath (([], ['o'], [9]) : List Char × List Char × List Nat) none) =
        some [9]) ∧
    write_attachment ⟨[(['o'], [5])], fun _ => true⟩ ([], ['o'], [9]) none
        ['m', 'a', 'x'] =
      (⟨[(['o'], [5])], fun _ => true⟩,
       [existsErrLine (resolvedOutPath (([], ['o'], [9]) : List Char × List Char × List Nat) none)]) ∧
    (∃ msg, write_attachment ⟨[], fun _ => false⟩ ([], ['o'], [9]) none
        ['m', 'a', 'x'] = (⟨[], fun _ => false⟩, [msg])) :=
  ⟨c6_overwrite_policy.1 ⟨[(['o'], [5])], fun _ => true⟩ ([], ['o'], [9]) none rfl,
   c6_overwrite_policy.2.1 ⟨[(['o'], [5])], fun _ => true⟩ ([], ['o'], [9]) none
     ['m', 'a', 'x'] [5] (by decide) rfl,
   c6_overwrite_policy.2.2.1 ⟨[], fun _ => false⟩ ([], ['o'], [9]) none
     ['m', 'a', 'x'] rfl⟩

/-- C7: for a directory input, the candidate set contains exactly the
joins of the direct-child entries that are regular files with the `.xml`
ending (no recursion: only `os.listdir`'s direct entries are considered);
for a non-directory (single-file) input, the one file itself is the only
candidate, with no condition on its extension. -/
theorem c7_enumeration :
    (∀ (fs : ReadFS) (path : List Char) (names : List (List Char))
        (files : List (List Char)) (q : List Char),
        fs.listdir path = .entries names →
        candidateFiles fs path = .ok files →
        (q ∈ files ↔ ∃ i ∈ names, fs.isFile (pathJoin path i) = true ∧
          dotXml.isSuffixOf i = true ∧ q = pathJoin path i)) ∧
    (∀ (fs : ReadFS) (path : List Char),
        fs.listdir path = .notADir → candidateFiles fs path = .ok [path]) := by
  constructor
  · intro fs path names files q hl hc
    simp only [candidateFiles, hl, Except.ok.injEq] at hc
    subst hc
    simp only [List.mem_map, List.mem_filter, Bool.and_eq_true]
    constructor
    · rintro ⟨i, ⟨hi, hf, hx⟩, rfl⟩
      exact ⟨i, hi, hf, hx, rfl⟩
    · rintro ⟨i, hi, hf, hx, rfl⟩
      exact ⟨i, ⟨hi, hf, hx⟩, rfl⟩
  · intro fs path hl
    simp [candidateFiles, hl]

theorem c7_witness :
    ((['/', 'd', '/', 'a', '.', 'x', 'm', 'l'] ∈
        (["a.xml".data, "b.txt".data].filter
            (fun i => (fun _ => true : List Char → Bool) (pathJoin ['/', 'd'] i) &&
              dotXml.isSuffixOf i)).map (pathJoin ['/', 'd']) ↔
      ∃ i ∈ ["a.xml".data, "b.txt".data],
        (fun _ => true : List Char → Bool) (pathJoin ['/', 'd'] i) = true ∧
          dotXml.isSuffixOf i = true ∧
          ['/', 'd', '/', 'a', '.', 'x', 'm', 'l'] = pathJoin ['/', 'd'] i) ∧
    candidateFiles
        ⟨fun p => p, fun _ => ListdirResult.notADir, fun _ => true,
          fun _ => Except.error []⟩ ['/', 'f'] = .ok [['/', 'f']]) :=
  ⟨c7_enumeration.1
      ⟨fun p => p, fun _ => ListdirResult.entries ["a.xml".data, "b.txt".data],
        fun _ => true, fun _ => Except.error []⟩
      ['/', 'd'] ["a.xml".data, "b.txt".data] _ ['/', 'd', '/', 'a', '.', 'x', 'm', 'l']
      rfl rfl,
   c7_enumeration.2
     ⟨fun p => p, fun _ => ListdirResult.notADir, fun _ => true,
       fun _ => Except.error []⟩ ['/', 'f'] rfl⟩

/-- C8: the program exits with code 1 exactly when the input path does not
exist (`os.listdir` raises `FileNotFoundError`), after printing that error;
in every other case — whatever happens to individual files, blocks or
writes — it exits with code 0. -/
theorem c8_exit_codes :
    (∀ (fs : ReadFS) (st : WriteFS) (path : List Char)
        (outdir : Option (List Char)) (safety msg : List Char),
        fs.listdir (fs.abspath path) = .notFound msg →
        mainFn fs st path outdir safety = (1, st, [msg])) ∧
    (∀ (fs : ReadFS) (st : WriteFS) (path : List Char)
        (outdir : Option (List Char)) (safety : List Char),
        (∀ msg, fs.listdir (fs.abspath path) ≠ .notFound msg) →
        (mainFn fs st path outdir safety).1 = 0) := by
  constructor
  · intro fs st path outdir safety msg hl
    simp [mainFn, yield_xml_files, candidateFiles, hl]
  · intro fs st path outdir safety hl
    cases hd : fs.listdir (fs.abspath path) with
    | entries names => simp [mainFn, yield_xml_files, candidateFiles, hd]
    | notADir => simp [mainFn, yield_xml_files, candidateFiles, hd]
    | notFound msg => exact absurd hd (hl msg)

theorem c8_witness :
    mainFn ⟨fun p => p, fun _ => ListdirResult.notFound ['n', 'o'], fun _ => true,
        fun _ => Except.error []⟩ ⟨[], fun _ => true⟩ ['/', 'x'] none
        ['m', 'a', 'x'] = (1, ⟨[], fun _ => true⟩, [['n', 'o']]) ∧
    (mainFn ⟨fun p => p, fun _ => ListdirResult.entries [], fun _ => true,
        fun _ => Except.error []⟩ ⟨[], fun _ => true⟩ ['/', 'x'] none
        ['m', 'a', 'x']).1 = 0 :=
  ⟨c8_exit_codes.1 _ ⟨[], fun _ => true⟩ ['/', 'x'] none ['m', 'a', 'x']
     ['n', 'o'] rfl,
   c8_exit_codes.2 _ ⟨[], fun _ => true⟩ ['/', 'x'] none ['m', 'a', 'x']
     (fun _ h => ListdirResult.noConfusion h)⟩

theorem skipWS_append_allspc {u : List Char} (v : List Char)
    (h : ∀ c ∈ u, isSpc c = true) : skipWS (u ++ v) = skipWS v := by
  induction u with
  | nil => rfl
  | cons c cs ih =>
    simp only [List.cons_append, skipWS, h c (by simp)]
    exact ih (fun d hd => h d (by simp [hd]))

theorem skipWS_nonspc_head {c : Char} (v : List Char) (h : isSpc c = false) :
    skipWS (c :: v) = c :: v := by
  simp [skipWS, h]

theorem matchLit_self : ∀ (lit rest : List Char), matchLit lit (lit ++ rest) = some rest := by
  intro lit
  induction lit with
  | nil => intro rest; rfl
  | cons c cs ih => intro rest; simp [matchLit, ih]

theorem matchOpenTag_canon {name : List Char} {n0 : Char} {ntl wa wb x : List Char}
    (hn : name = n0 :: ntl) (h0 : isSpc n0 = false)
    (hwa : ∀ c ∈ wa, isSpc c = true) (hwb : ∀ c ∈ wb, isSpc c = true) :
    matchOpenTag name ('<' :: (wa ++ (name ++ (wb ++ '>' :: x)))) = some x := by
  simp only [matchOpenTag, if_pos rfl, if_true]
  rw [skipWS_append_allspc (name ++ (wb ++ '>' :: x)) hwa]
  rw [hn]
  rw [List.cons_append]
  rw [skipWS_nonspc_head _ h0]
  rw [show n0 :: (ntl ++ (wb ++ '>' :: x)) = (n0 :: ntl) ++ (wb ++ '>' :: x) from rfl]
  rw [matchLit_self]
  dsimp only
  rw [skipWS_append_allspc ('>' :: x) hwb]
  rw [skipWS_nonspc_head _ (by decide)]
  simp

theorem matchCloseTag_canon {name : List Char} {n0 : Char} {ntl w1 w2 w3 x : List Char}
    (hn : name = n0 :: ntl) (h0 : isSpc n0 = false)
    (hw1 : ∀ c ∈ w1, isSpc c = true) (hw2 : ∀ c ∈ w2, isSpc c = true)
    (hw3 : ∀ c ∈ w3, isSpc c = true) :
    matchCloseTag name
      ('<' :: (w1 ++ '/' :: (w2 ++ (name ++ (w3 ++ '>' :: x))))) = some x := by
  simp only [matchCloseTag, if_pos rfl, if_true]
  rw [skipWS_append_allspc ('/' :: (w2 ++ (name ++ (w3 ++ '>' :: x)))) hw1]
  rw [skipWS_nonspc_head _ (by decide)]
  simp only [if_pos rfl, if_true]
  rw [skipWS_append_allspc (name ++ (w3 ++ '>' :: x)) hw2]
  rw [hn, List.cons_append, skipWS_nonspc_head _ h0]
  rw [show n0 :: (ntl ++ (w3 ++ '>' :: x)) = (n0 :: ntl) ++ (w3 ++ '>' :: x) from rfl]
  rw [matchLit_self]
  dsimp only
  rw [skipWS_append_allspc ('>' :: x) hw3]
  rw [skipWS_nonspc_head _ (by decide)]
  simp

theorem matchOpenTag_ne_head {name : List Char} {c : Char} (s : List Char)
    (h : ¬c = '<') : matchOpenTag name (c :: s) = none := by
  simp [matchOpenTag, h]

theorem matchCloseTag_ne_head {name : List Char} {c : Char} (s : List Char)
    (h : ¬c = '<') : matchCloseTag name (c :: s) = none := by
  simp [matchCloseTag, h]

theorem findCloseTag_prefix {name : List Char} {z r : List Char} :
    ∀ {p : List Char}, '<' ∉ p → matchCloseTag name z = some r →
      findCloseTag name (p ++ z) = some (p, r) := by
  intro p
  induction p with
  | nil =>
    intro _ hz
    cases z with
    | nil => simp [matchCloseTag] at hz
    | cons c cs => simp [findCloseTag, hz]
  | cons c cs ih =>
    intro hp hz
    have hc : ¬c = '<' := fun h => hp (by simp [h])
    simp only [List.cons_append, findCloseTag, matchCloseTag_ne_head _ hc]
    rw [show cs.append z = cs ++ z from rfl]
    rw [ih (fun h => hp (by simp [h])) hz]

theorem findAllegati_step_none {c : Char} {cs : List Char}
    (h : findBlock (c :: cs) = none) : findAllegati (c :: cs) = findAllegati cs := by
  unfold findAllegati
  rw [show (c :: cs).length = cs.length + 1 from rfl]
  simp only [findAllegatiFuel, h]

theorem findAllegati_step_some {c : Char} {cs g rest : List Char}
    (h : findBlock (c :: cs) = some (g, rest)) :
    findAllegati (c :: cs) = g :: findAllegati rest := by
  have e := findBlock_length h
  simp only [List.length_cons] at e
  unfold findAllegati
  rw [show (c :: cs).length = cs.length + 1 from rfl]
  simp only [findAllegatiFuel, h]
  exact congrArg (g :: ·) (findAllegatiFuel_congr cs.length (by omega) (Nat.le_refl _))

theorem findAllegati_cons_ne {c : Char} {cs : List Char} (h : ¬c = '<') :
    findAllegati (c :: cs) = findAllegati cs :=
  findAllegati_step_none (by simp [findBlock, matchOpenTag_ne_head _ h])

theorem findAllegati_sep {z : List Char} :
    ∀ {sep : List Char}, '<' ∉ sep → findAllegati (sep ++ z) = findAllegati z := by
  intro sep
  induction sep with
  | nil => intro _; rfl
  | cons c cs ih =>
    intro h
    rw [List.cons_append, findAllegati_cons_ne (fun hc => h (by simp [hc]))]
    exact ih (fun hc => h (by simp [hc]))

theorem findAllegati_block_step {wa wb p w1 w2 w3 rest : List Char}
    (hwa : ∀ c ∈ wa, isSpc c = true) (hwb : ∀ c ∈ wb, isSpc c = true)
    (hw1 : ∀ c ∈ w1, isSpc c = true) (hw2 : ∀ c ∈ w2, isSpc c = true)
    (hw3 : ∀ c ∈ w3, isSpc c = true) (hp : '<' ∉ p) :
    findAllegati ('<' :: (wa ++ (allegatiName ++ (wb ++ '>' ::
        (p ++ '<' :: (w1 ++ '/' :: (w2 ++ (allegatiName ++ (w3 ++ '>' :: rest))))))))) =
      p :: findAllegati rest := by
  have hcl : matchCloseTag allegatiName
      ('<' :: (w1 ++ '/' :: (w2 ++ (allegatiName ++ (w3 ++ '>' :: rest))))) = some rest :=
    matchCloseTag_canon rfl (by decide) hw1 hw2 hw3
  have hop : matchOpenTag allegatiName
      ('<' :: (wa ++ (allegatiName ++ (wb ++ '>' ::
        (p ++ '<' :: (w1 ++ '/' :: (w2 ++ (allegatiName ++ (w3 ++ '>' :: rest))))))))) =
      some (p ++ '<' :: (w1 ++ '/' :: (w2 ++ (allegatiName ++ (w3 ++ '>' :: rest))))) :=
    matchOpenTag_canon rfl (by decide) hwa hwb
  have hfb : findBlock ('<' :: (wa ++ (allegatiName ++ (wb ++ '>' ::
      (p ++ '<' :: (w1 ++ '/' :: (w2 ++ (allegatiName ++ (w3 ++ '>' :: rest))))))))) =
      some (p, rest) := by
    rw [findBlock, hop]
    exact findCloseTag_prefix hp hcl
  exact findAllegati_step_some hfb

/-- One attachment container of a well-formed document: an optional
separator, the opening tag `<`‹wa›`Allegati`‹wb›`>`, the payload, and the
closing tag `<`‹w1›`/`‹w2›`Allegati`‹w3›`>`, where the `w` components are
whitespace runs inside the tags. -/
structure AllegatiItem where
  sep : List Char
  wa : List Char
  wb : List Char
  payload : List Char
  w1 : List Char
  w2 : List Char
  w3 : List Char

/-- Well-formedness of an `AllegatiItem`: the tag-internal runs are
whitespace, and neither the separator nor the payload contains `<` (so no
stray tag can start inside them). -/
def itemOk (it : AllegatiItem) : Prop :=
  (∀ c ∈ it.wa, isSpc c = true) ∧ (∀ c ∈ it.wb, isSpc c = true) ∧
    (∀ c ∈ it.w1, isSpc c = true) ∧ (∀ c ∈ it.w2, isSpc c = true) ∧
    (∀ c ∈ it.w3, isSpc c = true) ∧ '<' ∉ it.sep ∧ '<' ∉ it.payload

instance (it : AllegatiItem) : Decidable (itemOk it) := by
  unfold itemOk
  infer_instance

/-- The text of a document built from a list of attachment containers
followed by a trailing remainder. -/
def docText : List AllegatiItem → List Char → List Char
  | [], tail => tail
  | it :: rest, tail =>
    it.sep ++ '<' :: (it.wa ++ (allegatiName ++ (it.wb ++ '>' ::
      (it.payload ++ '<' :: (it.w1 ++ '/' :: (it.w2 ++ (allegatiName ++
        (it.w3 ++ '>' :: docText rest tail))))))))

theorem findAllegati_docText :
    ∀ (items : List AllegatiItem) (tail : List Char),
      (∀ it ∈ items, itemOk it) → '<' ∉ tail →
      findAllegati (docText items tail) = items.map (fun it => it.payload) := by
  intro items
  induction items with
  | nil =>
    intro tail _ ht
    have h2 : findAllegati (tail ++ []) = findAllegati [] := findAllegati_sep ht
    rw [List.append_nil] at h2
    exact h2.trans rfl
  | cons it rest ih =>
    intro tail hok ht
    have hit : itemOk it := hok it (by simp)
    obtain ⟨hwa, hwb, hw1, hw2, hw3, hsep, hp⟩ := hit
    rw [docText, findAllegati_sep hsep,
      findAllegati_block_step hwa hwb hw1 hw2 hw3 hp,
      ih tail (fun x hx => hok x (by simp [hx])) ht]
    rfl

theorem findCloseTag_none {name : List Char} :
    ∀ {s : List Char},
      (∀ t, ('<' :: t) <:+ s → matchCloseTag name ('<' :: t) = none) →
      findCloseTag name s = none := by
  intro s
  induction s with
  | nil => intro _; rfl
  | cons c cs ih =>
    intro h
    have hrec : findCloseTag name cs = none :=
      ih (fun t ht => h t (ht.trans (List.suffix_cons c cs)))
    have hhead : matchCloseTag name (c :: cs) = none := by
      by_cases hc : c = '<'
      · subst hc
        exact h cs (List.suffix_refl _)
      · exact matchCloseTag_ne_head _ hc
    simp [findCloseTag, hhead, hrec]

theorem skipWS_suffix : ∀ s : List Char, skipWS s <:+ s := by
  intro s
  induction s with
  | nil => exact List.suffix_refl _
  | cons c cs ih =>
    simp only [skipWS]
    split
    · exact ih.trans (List.suffix_cons c cs)
    · exact List.suffix_refl _

theorem matchLit_suffix {lit : List Char} :
    ∀ {s r : List Char}, matchLit lit s = some r → r <:+ s := by
  induction lit with
  | nil =>
    intro s r h
    simp only [matchLit, Option.some.injEq] at h
    subst h
    exact List.suffix_refl _
  | cons c cs ih =>
    intro s r h
    cases s with
    | nil => simp [matchLit] at h
    | cons x xs =>
      simp only [matchLit] at h
      split at h
      · exact (ih h).trans (List.suffix_cons x xs)
      · exact absurd h (by simp)

theorem matchOpenTag_suffix {name s r : List Char}
    (h : matchOpenTag name s = some r) : r <:+ s := by
  cases s with
  | nil => simp [matchOpenTag] at h
  | cons c cs =>
    simp only [matchOpenTag] at h
    split at h
    · split at h
      · exact absurd h (by simp)
      next r1 h1 =>
        split at h
        next h2 => exact absurd h (by simp)
        next d r2 h2 =>
          split at h
          · cases h
            have s1 : r1 <:+ cs := (matchLit_suffix h1).trans (skipWS_suffix cs)
            have s2 := skipWS_suffix r1
            rw [h2] at s2
            exact (((List.suffix_cons _ _).trans s2).trans s1).trans
              (List.suffix_cons c cs)
          · exact absurd h (by simp)
    · exact absurd h (by simp)

theorem findAllegati_no_open :
    ∀ {doc : List Char},
      (∀ t, ('<' :: t) <:+ doc → matchOpenTag allegatiName ('<' :: t) = none) →
      findAllegati doc = [] := by
  intro doc
  induction doc with
  | nil => intro _; rfl
  | cons c cs ih =>
    intro h
    have hop : matchOpenTag allegatiName (c :: cs) = none := by
      by_cases hc : c = '<'
      · subst hc; exact h cs (List.suffix_refl _)
      · exact matchOpenTag_ne_head _ hc
    rw [findAllegati_step_none (by simp [findBlock, hop])]
    exact ih (fun t ht => h t (ht.trans (List.suffix_cons c cs)))

theorem findAllegati_no_close :
    ∀ {doc : List Char},
      (∀ t, ('<' :: t) <:+ doc → matchCloseTag allegatiName ('<' :: t) = none) →
      findAllegati doc = [] := by
  intro doc
  induction doc with
  | nil => intro _; rfl
  | cons c cs ih =>
    intro h
    have hfb : findBlock (c :: cs) = none := by
      cases hop : matchOpenTag allegatiName (c :: cs) with
      | none => simp [findBlock, hop]
      | some r =>
        have hr : r <:+ c :: cs := matchOpenTag_suffix hop
        have : findCloseTag allegatiName r = none :=
          findCloseTag_none (fun t ht => h t (ht.trans hr))
        simp [findBlock, hop, this]
    rw [findAllegati_step_none hfb]
    exact ih (fun t ht => h t (ht.trans (List.suffix_cons c cs)))

/-- C1: a document made of N well-formed attachment containers (arbitrary
whitespace inside the tags, payloads that may span multiple lines) yields
exactly its N payloads, in order, each paired with the document path -- so
non-greedy matching never merges adjacent containers; a document in which
the opening tag pattern matches nowhere, or the closing tag pattern matches
nowhere, yields the empty list; tag names are case-sensitive
(`<allegati>` is not matched). -/
theorem c1_locator_blocks :
    (∀ (path : List Char) (items : List AllegatiItem) (tail : List Char),
        (∀ it ∈ items, itemOk it) → '<' ∉ tail →
        list_attachments (path, docText items tail) =
          items.map (fun it => (path, it.payload))) ∧
    (∀ (path doc : List Char),
        (∀ t, ('<' :: t) <:+ doc →
          matchOpenTag allegatiName ('<' :: t) = none) →
        list_attachments (path, doc) = []) ∧
    (∀ (path doc : List Char),
        (∀ t, ('<' :: t) <:+ doc →
          matchCloseTag allegatiName ('<' :: t) = none) →
        list_attachments (path, doc) = []) ∧
    list_attachments (['p'], "<allegati>hello</allegati>".data) = [] := by
  refine ⟨?_, ?_, ?_, by decide⟩
  · intro path items tail hok ht
    show (findAllegati (docText items tail)).map _ = _
    rw [findAllegati_docText items tail hok ht, List.map_map]
    rfl
  · intro path doc h
    show (findAllegati doc).map _ = _
    rw [findAllegati_no_open h]
    rfl
  · intro path doc h
    show (findAllegati doc).map _ = _
    rw [findAllegati_no_close h]
    rfl

theorem c1_witness :
    list_attachments (['p'],
        docText [⟨"pre".data, [], [], "x\ny".data, [], [], []⟩,
                 ⟨"-".data, [' '], [' '], "z".data, [' '], [], [' ']⟩]
          "end".data) =
      [(['p'], "x\ny".data), (['p'], "z".data)] ∧
    list_attachments (['p'], "no tags".data) = [] ∧
    list_attachments (['q'], "still no tags".data) = [] :=
  ⟨(c1_locator_blocks.1 ['p']
      [⟨"pre".data, [], [], "x\ny".data, [], [], []⟩,
       ⟨"-".data, [' '], [' '], "z".data, [' '], [], [' ']⟩]
      "end".data (by decide) (by decide)).trans (by decide),
   c1_locator_blocks.2.1 ['p'] "no tags".data
     (fun t ht => absurd (ht.sublist.subset (List.mem_cons_self '<' t)) (by decide)),
   c1_locator_blocks.2.2.1 ['q'] "still no tags".data
     (fun t ht => absurd (ht.sublist.subset (List.mem_cons_self '<' t)) (by decide))⟩

theorem decVal_encChar : ∀ n : Nat, n < 64 → decVal (encChar n) = some n := by decide

theorem encChar_ne_pad : ∀ n : Nat, n < 64 → ¬encChar n = '=' := by decide

theorem a2b_quad {a b c : Nat} (rest : List Char) (ha : a < 256) (hb : b < 256)
    (hc : c < 256) :
    a2b (encChar (a / 4) :: encChar (a % 4 * 16 + b / 16) ::
        encChar (b % 16 * 4 + c / 64) :: encChar (c % 64) :: rest) 0 0 =
      (a2b rest 0 0).map (fun bs => a :: b :: c :: bs) := by
  have n1 := encChar_ne_pad (a / 4) (by omega)
  have n2 := encChar_ne_pad (a % 4 * 16 + b / 16) (by omega)
  have n3 := encChar_ne_pad (b % 16 * 4 + c / 64) (by omega)
  have n4 := encChar_ne_pad (c % 64) (by omega)
  have d1 := decVal_encChar (a / 4) (by omega)
  have d2 := decVal_encChar (a % 4 * 16 + b / 16) (by omega)
  have d3 := decVal_encChar (b % 16 * 4 + c / 64) (by omega)
  have d4 := decVal_encChar (c % 64) (by omega)
  cases hx : a2b rest 0 0 with
  | error e =>
    simp [a2b, n1, n2, n3, n4, d1, d2, d3, d4, hx, Except.map]
  | ok bs =>
    simp [a2b, n1, n2, n3, n4, d1, d2, d3, d4, hx, Except.map]
    omega

theorem a2b_tail1 {a : Nat} (ha : a < 256) :
    a2b [encChar (a / 4), encChar (a % 4 * 16), '=', '='] 0 0 = .ok [a] := by
  have n1 := encChar_ne_pad (a / 4) (by omega)
  have n2 := encChar_ne_pad (a % 4 * 16) (by omega)
  have d1 := decVal_encChar (a / 4) (by omega)
  have d2 := decVal_encChar (a % 4 * 16) (by omega)
  simp [a2b, n1, n2, d1, d2, findValid, Except.map]
  omega

theorem a2b_tail2 {a b : Nat} (ha : a < 256) (hb : b < 256) :
    a2b [encChar (a / 4), encChar (a % 4 * 16 + b / 16), encChar (b % 16 * 4), '=']
        0 0 = .ok [a, b] := by
  have n1 := encChar_ne_pad (a / 4) (by omega)
  have n2 := encChar_ne_pad (a % 4 * 16 + b / 16) (by omega)
  have n3 := encChar_ne_pad (b % 16 * 4) (by omega)
  have d1 := decVal_encChar (a / 4) (by omega)
  have d2 := decVal_encChar (a % 4 * 16 + b / 16) (by omega)
  have d3 := decVal_encChar (b % 16 * 4) (by omega)
  simp [a2b, n1, n2, n3, d1, d2, d3, Except.map]
  omega

theorem b64_roundtrip : ∀ bs : List Nat, (∀ x ∈ bs, x < 256) →
    b64decode (b64encode bs) = .ok bs := by
  intro bs
  induction bs using b64encode.induct with
  | case1 => intro _; rfl
  | case2 a =>
    intro h
    show a2b (b64encode [a]) 0 0 = _
    rw [b64encode]
    exact a2b_tail1 (h a (by simp))
  | case3 a b =>
    intro h
    show a2b (b64encode [a, b]) 0 0 = _
    rw [b64encode]
    exact a2b_tail2 (h a (by simp)) (h b (by simp))
  | case4 a b c rest ih =>
    intro h
    show a2b (b64encode (a :: b :: c :: rest)) 0 0 = _
    rw [b64encode]
    rw [a2b_quad (b64encode rest) (h a (by simp)) (h b (by simp)) (h c (by simp))]
    have := ih (fun x hx => h x (by simp [hx]))
    rw [show a2b (b64encode rest) 0 0 = b64decode (b64encode rest) from rfl, this]
    rfl

theorem encChar_class : ∀ n : Nat, n < 64 →
    b64Class (encChar n) = true ∧ ¬encChar n = '<' := by decide

theorem b64encode_chars : ∀ bs : List Nat, (∀ x ∈ bs, x < 256) →
    ∀ c ∈ b64encode bs, b64Class c = true ∧ ¬c = '<' := by
  intro bs
  induction bs using b64encode.induct with
  | case1 => intro _ c hc; simp [b64encode] at hc
  | case2 a =>
    intro h c hc
    simp only [b64encode, List.mem_cons, List.not_mem_nil, or_false] at hc
    have ha := h a (by simp)
    rcases hc with rfl | rfl | rfl | rfl
    · exact encChar_class _ (by omega)
    · exact encChar_class _ (by omega)
    · exact ⟨by decide, by decide⟩
    · exact ⟨by decide, by decide⟩
  | case3 a b =>
    intro h c hc
    simp only [b64encode, List.mem_cons, List.not_mem_nil, or_false] at hc
    have ha := h a (by simp)
    have hb := h b (by simp)
    rcases hc with rfl | rfl | rfl | rfl
    · exact encChar_class _ (by omega)
    · exact encChar_class _ (by omega)
    · exact encChar_class _ (by omega)
    · exact ⟨by decide, by decide⟩
  | case4 a b c rest ih =>
    intro h d hd
    simp only [b64encode, List.mem_cons] at hd
    have ha := h a (by simp)
    have hb := h b (by simp)
    have hc := h c (by simp)
    rcases hd with rfl | rfl | rfl | rfl | hd
    · exact encChar_class _ (by omega)
    · exact encChar_class _ (by omega)
    · exact encChar_class _ (by omega)
    · exact encChar_class _ (by omega)
    · exact ih (fun x hx => h x (by simp [hx])) d hd

/-- A document fragment carrying one payload tag
`<Attachment>`‹enc›`</Attachment>` after a `<`-free preamble and before an
arbitrary remainder. -/
def attachmentBlock (pre enc post : List Char) : List Char :=
  pre ++ '<' :: (attachmentName ++ '>' ::
    (enc ++ '<' :: '/' :: (attachmentName ++ '>' :: post)))

theorem matchCloseTag_attachment (post : List Char) :
    matchCloseTag attachmentName
      ('<' :: '/' :: (attachmentName ++ '>' :: post)) = some post := by
  have h : matchCloseTag attachmentName
      ('<' :: ([] ++ '/' :: ([] ++ (attachmentName ++ ([] ++ '>' :: post))))) =
      some post :=
    matchCloseTag_canon rfl (by decide) (by simp) (by simp) (by simp)
  simpa using h

theorem allegatoGroup_canon {enc : List Char} (post : List Char)
    (hcls : ∀ c ∈ enc, b64Class c = true ∧ ¬c = '<') :
    allegatoGroup (enc ++ '<' :: '/' :: (attachmentName ++ '>' :: post)) =
      some enc := by
  induction enc with
  | nil =>
    simp only [List.nil_append, allegatoGroup, matchCloseTag_attachment post,
      Option.isSome_some, if_true]
  | cons c cs ih =>
    obtain ⟨hcl, hlt⟩ := hcls c (by simp)
    simp only [List.cons_append, allegatoGroup,
      matchCloseTag_ne_head _ hlt, Option.isSome_none, Bool.false_eq_true,
      if_false, hcl, if_true]
    rw [show cs.append ('<' :: '/' :: (attachmentName ++ '>' :: post)) =
      cs ++ '<' :: '/' :: (attachmentName ++ '>' :: post) from rfl]
    rw [ih (fun d hd => hcls d (by simp [hd]))]

theorem searchAllegato_cons_ne {c : Char} {cs : List Char} (h : ¬c = '<') :
    searchAllegato (c :: cs) = searchAllegato cs := by
  simp [searchAllegato, matchOpenTag_ne_head _ h]

theorem searchAllegato_canon {pre enc : List Char} (post : List Char)
    (hpre : '<' ∉ pre) (hcls : ∀ c ∈ enc, b64Class c = true ∧ ¬c = '<') :
    searchAllegato (attachmentBlock pre enc post) = some enc := by
  unfold attachmentBlock
  induction pre with
  | cons c cs ih =>
    rw [List.cons_append,
      searchAllegato_cons_ne (fun hc => hpre (by simp [hc]))]
    exact ih (fun hc => hpre (by simp [hc]))
  | nil =>
    rw [List.nil_append]
    have hop : matchOpenTag attachmentName
        ('<' :: (attachmentName ++ '>' ::
          (enc ++ '<' :: '/' :: (attachmentName ++ '>' :: post)))) =
        some (enc ++ '<' :: '/' :: (attachmentName ++ '>' :: post)) := by
      have h : matchOpenTag attachmentName
          ('<' :: ([] ++ (attachmentName ++ ([] ++ '>' ::
            (enc ++ '<' :: '/' :: (attachmentName ++ '>' :: post)))))) =
          some (enc ++ '<' :: '/' :: (attachmentName ++ '>' :: post)) :=
        matchOpenTag_canon rfl (by decide) (by simp) (by simp)
      simpa using h
    simp only [searchAllegato, hop, allegatoGroup_canon post hcls]

theorem lookupFile_setFile (st : WriteFS) (p : List Char) (bs : List Nat) :
    lookupFile (setFile st p bs) p = some bs := by
  simp [lookupFile, setFile, List.lookup]

/-- C9: decoding the payload tag containing the base64 encoding of an
arbitrary byte sequence `bs` recovers exactly `bs`; the decoder therefore
materializes an attachment with payload `bs` for such a block, and a
successful write stores exactly those bytes at the resolved output path,
so reading the written file back yields content byte-identical to `bs`. -/
theorem c9_base64_write_roundtrip :
    (∀ bs : List Nat, (∀ x ∈ bs, x < 256) →
        b64decode (b64encode bs) = .ok bs) ∧
    (∀ (pre post : List Char) (bs : List Nat), '<' ∉ pre → (∀ x ∈ bs, x < 256) →
        searchAllegato (attachmentBlock pre (b64encode bs) post) =
          some (b64encode bs)) ∧
    (∀ (idx : Nat) (path pre post : List Char) (bs : List Nat),
        '<' ∉ pre → (∀ x ∈ bs, x < 256) → bs ≠ [] →
        processBlock idx (path, attachmentBlock pre (b64encode bs) post) =
          (some ((pathSplit path).1,
                 resolvedNome idx path (attachmentBlock pre (b64encode bs) post) ++
                   '.' :: resolvedExt (attachmentBlock pre (b64encode bs) post) bs,
                 bs),
           [])) ∧
    (∀ (st : WriteFS) (att : List Char × List Char × List Nat)
        (outdir : Option (List Char)) (safety : List Char),
        st.allowWrite (resolvedOutPath att outdir) = true →
        (safety = lowLit ∨ lookupFile st (resolvedOutPath att outdir) = none) →
        lookupFile (write_attachment st att outdir safety).1
            (resolvedOutPath att outdir) = some att.2.2) := by
  refine ⟨b64_roundtrip, ?_, ?_, ?_⟩
  · intro pre post bs hpre hbs
    exact searchAllegato_canon post hpre (b64encode_chars bs hbs)
  · intro idx path pre post bs hpre hbs hne
    exact processBlock_ok idx path
      (searchAllegato_canon post hpre (b64encode_chars bs hbs))
      (b64_roundtrip bs hbs) hne
  · intro st att outdir safety hw hfresh
    by_cases hs : safety = lowLit
    · simp only [write_attachment, hs, if_pos rfl, hw, if_true]
      exact lookupFile_setFile st _ _
    · rcases hfresh with hfresh | hfresh
      · exact absurd hfresh hs
      · simp only [write_attachment, if_neg hs, hfresh, hw, if_true]
        exact lookupFile_setFile st _ _

theorem c9_witness :
    b64decode (b64encode [37, 0, 255]) = .ok [37, 0, 255] ∧
    searchAllegato (attachmentBlock [] (b64encode [37, 0, 255]) []) =
      some (b64encode [37, 0, 255]) ∧
    processBlock 0 (['a'], attachmentBlock [] (b64encode [37, 0, 255]) []) =
      (some ((pathSplit ['a']).1,
             resolvedNome 0 ['a'] (attachmentBlock [] (b64encode [37, 0, 255]) []) ++
               '.' :: resolvedExt (attachmentBlock [] (b64encode [37, 0, 255]) [])
                 [37, 0, 255],
             [37, 0, 255]),
       []) ∧
    lookupFile (write_attachment ⟨[], fun _ => true⟩ (['d'], ['f'], [37, 0, 255])
          none ['m', 'a', 'x']).1
        (resolvedOutPath ((['d'], ['f'], [37, 0, 255]) :
          List Char × List Char × List Nat) none) =
      some [37, 0, 255] :=
  ⟨c9_base64_write_roundtrip.1 [37, 0, 255] (by decide),
   c9_base64_write_roundtrip.2.1 [] [] [37, 0, 255] (by decide) (by decide),
   c9_base64_write_roundtrip.2.2.1 0 ['a'] [] [] [37, 0, 255] (by decide)
     (by decide) (by decide),
   c9_base64_write_roundtrip.2.2.2 ⟨[], fun _ => true⟩ (['d'], ['f'], [37, 0, 255])
     none ['m', 'a', 'x'] rfl (Or.inr rfl)⟩

theorem skipWS_mem_head : ∀ {t : List Char} {c : Char} {t2 : List Char},
    skipWS t = c :: t2 → c ∈ t := by
  intro t
  induction t with
  | nil => intro c t2 h; simp [skipWS] at h
  | cons d ds ih =>
    intro c t2 h
    simp only [skipWS] at h
    split at h
    · exact List.mem_cons_of_mem d (ih h)
    · cases h; exact List.mem_cons_self _ _

theorem closeAfterWS_no_lt {name t : List Char} (h : '<' ∉ t) :
    closeAfterWS name t = false := by
  unfold closeAfterWS
  cases hsk : skipWS t with
  | nil => rfl
  | cons c t2 =>
    have hc : c ∈ t := skipWS_mem_head hsk
    have : ¬c = '<' := fun he => h (he ▸ hc)
    rw [matchCloseTag_ne_head _ this]
    rfl

theorem tryGroup_some {name : List Char} :
    ∀ {b : Nat} {s g : List Char}, tryGroup name b s = some g →
      ∃ n, 1 ≤ n ∧ n ≤ b ∧ n ≤ s.length ∧
        closeAfterWS name (s.drop n) = true := by
  intro b
  induction b with
  | zero => intro s g h; simp [tryGroup] at h
  | succ b ih =>
    intro s g h
    cases s with
    | nil => simp [tryGroup] at h
    | cons c t =>
      simp only [tryGroup] at h
      split at h
      · exact absurd h (by simp)
      · split at h
        next hcl =>
          exact ⟨1, Nat.le_refl _, by omega, by simp, by simpa using hcl⟩
        next hcl =>
          cases hrec : tryGroup name b t with
          | none => rw [hrec] at h; exact absurd h (by simp)
          | some g2 =>
            obtain ⟨n, hn1, hnb, hnl, hcw⟩ := ih hrec
            exact ⟨n + 1, by omega, by omega, by simpa using hnl, by simpa using hcw⟩

theorem tryGroup_none {name : List Char} {b : Nat} {s : List Char}
    (h : ∀ n, 1 ≤ n → n ≤ b → n ≤ s.length →
      closeAfterWS name (s.drop n) = false) :
    tryGroup name b s = none := by
  cases hg : tryGroup name b s with
  | none => rfl
  | some g =>
    obtain ⟨n, hn1, hnb, hnl, hcw⟩ := tryGroup_some hg
    rw [h n hn1 hnb hnl] at hcw
    cases hcw

theorem tryFromWS_none {name : List Char} {lim : Nat} {r : List Char} :
    ∀ {K : Nat}, (∀ k, k ≤ K → tryGroup name lim (r.drop k) = none) →
      tryFromWS name lim r K = none := by
  intro K
  induction K with
  | zero =>
    intro h
    simpa [tryFromWS] using h 0 (Nat.le_refl _)
  | succ K ih =>
    intro h
    simp only [tryFromWS, h (K + 1) (Nat.le_refl _)]
    exact ih (fun k hk => h k (by omega))

theorem searchTag_cons_ne {name : List Char} {lim : Nat} {c : Char}
    {cs : List Char} (h : ¬c = '<') :
    searchTag name lim (c :: cs) = searchTag name lim cs := by
  simp [searchTag, matchOpenTag_ne_head _ h]

theorem searchTag_none {name : List Char} {lim : Nat} :
    ∀ {s : List Char},
      (∀ t, ('<' :: t) <:+ s → ∀ r, matchOpenTag name ('<' :: t) = some r →
        afterOpen name lim r = none) →
      searchTag name lim s = none := by
  intro s
  induction s with
  | nil => intro _; rfl
  | cons c cs ih =>
    intro h
    have hrec : searchTag name lim cs = none :=
      ih (fun t ht r hr => h t (ht.trans (List.suffix_cons c cs)) r hr)
    by_cases hc : c = '<'
    · subst hc
      cases hop : matchOpenTag name ('<' :: cs) with
      | none => simp [searchTag, hop, hrec]
      | some r => simp [searchTag, hop, hrec, h cs (List.suffix_refl _) r hop]
    · rw [searchTag_cons_ne hc]
      exact hrec

theorem lt_suffix_elim {t rest : List Char} :
    ∀ {A : List Char}, '<' ∉ A → ('<' :: t) <:+ (A ++ rest) →
      ('<' :: t) <:+ rest := by
  intro A
  induction A with
  | nil => intro _ h; simpa using h
  | cons a as ih =>
    intro hA h
    rw [List.cons_append, List.suffix_cons_iff] at h
    rcases h with h | h
    · have ha : a = '<' := ((List.cons.injEq _ _ _ _).mp h.symm).1
      exact absurd ha (fun he => hA (by simp [he]))
    · exact ih (fun hm => hA (by simp [hm])) h

/-- Whitespace-trim of a character list (both ends), the reference notion of
the "trimmed" content between the name tags. -/
def trimWS (l : List Char) : List Char :=
  ((l.dropWhile (fun c => isSpc c)).reverse.dropWhile (fun c => isSpc c)).reverse

theorem dropWhile_head_false {p : Char → Bool} :
    ∀ {l : List Char} {c : Char} {cs : List Char},
      l.dropWhile p = c :: cs → p c = false := by
  intro l
  induction l with
  | nil => intro c cs h; simp [List.dropWhile] at h
  | cons d ds ih =>
    intro c cs h
    rw [List.dropWhile_cons] at h
    split at h
    · exact ih h
    · cases h
      next hpd => exact Bool.not_eq_true _ ▸ (by simpa using hpd)

theorem skipWS_append_exists {u v : List Char}
    (h : ∃ c ∈ u, isSpc c = false) :
    ∃ d u2, skipWS (u ++ v) = d :: (u2 ++ v) ∧ isSpc d = false ∧ d ∈ u := by
  induction u with
  | nil => simp at h
  | cons c cs ih =>
    by_cases hc : isSpc c = true
    · have h2 : ∃ d ∈ cs, isSpc d = false := by
        obtain ⟨d, hd, hds⟩ := h
        rcases List.mem_cons.mp hd with rfl | hd2
        · rw [hc] at hds; cases hds
        · exact ⟨d, hd2, hds⟩
      obtain ⟨d, u2, hsk, hds, hdm⟩ := ih h2
      refine ⟨d, u2, ?_, hds, List.mem_cons_of_mem c hdm⟩
      rw [List.cons_append, skipWS]
      simp only [hc, if_true]
      exact hsk
    · refine ⟨c, cs, ?_, by simpa using hc, List.mem_cons_self _ _⟩
      rw [List.cons_append, skipWS]
      simp [hc]

theorem wsLen_append_head {d : Char} (hd : isSpc d = false) :
    ∀ (u w : List Char), wsLen (u ++ d :: w) ≤ u.length := by
  intro u
  induction u with
  | nil => intro w; simp [wsLen, hd]
  | cons c cs ih =>
    intro w
    rw [List.cons_append, wsLen]
    split
    · have := ih w
      simp only [List.length_cons]
      omega
    · simp

/-- A document fragment carrying one name tag
`<NomeAttachment>`‹content›`</NomeAttachment>` between a `<`-free preamble
and a `<`-free remainder. -/
def nomeBlock (pre content post : List Char) : List Char :=
  pre ++ '<' :: (nomeName ++ '>' ::
    (content ++ '<' :: '/' :: (nomeName ++ '>' :: post)))

theorem matchOpenTag_nome (x : List Char) :
    matchOpenTag nomeName ('<' :: (nomeName ++ '>' :: x)) = some x := by
  have h : matchOpenTag nomeName
      ('<' :: ([] ++ (nomeName ++ ([] ++ '>' :: x)))) = some x :=
    matchOpenTag_canon rfl (by decide) (by simp) (by simp)
  simpa using h

theorem matchOpenTag_slash {n0 : Char} {ntl : List Char}
    (z : List Char) (h0 : ('/' = n0) → False) :
    matchOpenTag (n0 :: ntl) ('<' :: '/' :: z) = none := by
  simp only [matchOpenTag, if_pos rfl, if_true]
  rw [skipWS_nonspc_head _ (by decide)]
  rw [show matchLit (n0 :: ntl) ('/' :: z) = none from by
    simp only [matchLit]
    rw [if_neg h0]]

theorem searchTag_nomeBlock_none {pre content post : List Char}
    (hpre : '<' ∉ pre) (hcont : '<' ∉ content) (hpost : '<' ∉ post)
    (hcore : afterOpen nomeName 60
      (content ++ '<' :: '/' :: (nomeName ++ '>' :: post)) = none) :
    searchTag nomeName 60 (nomeBlock pre content post) = none := by
  have hA1 : '<' ∉ nomeName ++ '>' :: content := by
    intro hm
    rcases List.mem_append.mp hm with hm | hm
    · exact absurd hm (by decide)
    · rcases List.mem_cons.mp hm with hm | hm
      · cases hm
      · exact hcont hm
  have hB1 : '<' ∉ '/' :: (nomeName ++ '>' :: post) := by
    intro hm
    rcases List.mem_cons.mp hm with hm | hm
    · cases hm
    · rcases List.mem_append.mp hm with hm | hm
      · exact absurd hm (by decide)
      · rcases List.mem_cons.mp hm with hm | hm
        · cases hm
        · exact hpost hm
  have hshape : nomeBlock pre content post =
      pre ++ '<' :: ((nomeName ++ '>' :: content) ++
        '<' :: ('/' :: (nomeName ++ '>' :: post))) := by
    simp [nomeBlock, List.append_assoc]
  rw [hshape]
  apply searchTag_none
  intro t ht r hr
  have h1 := lt_suffix_elim hpre ht
  rcases List.suffix_cons_iff.mp h1 with heq | h2
  · have ht2 : t = (nomeName ++ '>' :: content) ++
        '<' :: ('/' :: (nomeName ++ '>' :: post)) :=
      ((List.cons.injEq _ _ _ _).mp heq).2
    subst ht2
    have hx : matchOpenTag nomeName
        ('<' :: ((nomeName ++ '>' :: content) ++
          '<' :: ('/' :: (nomeName ++ '>' :: post)))) =
        some (content ++ '<' :: '/' :: (nomeName ++ '>' :: post)) := by
      have h3 := matchOpenTag_nome
        (content ++ '<' :: '/' :: (nomeName ++ '>' :: post))
      rw [show nomeName ++ '>' ::
          (content ++ '<' :: '/' :: (nomeName ++ '>' :: post)) =
          (nomeName ++ '>' :: content) ++
            '<' :: ('/' :: (nomeName ++ '>' :: post)) by
        simp [List.append_assoc]] at h3
      exact h3
    rw [hx] at hr
    cases hr
    exact hcore
  · have h3 := lt_suffix_elim hA1 h2
    rcases List.suffix_cons_iff.mp h3 with heq | h4
    · have ht2 : t = '/' :: (nomeName ++ '>' :: post) :=
        ((List.cons.injEq _ _ _ _).mp heq).2
      subst ht2
      have hsl : matchOpenTag nomeName
          ('<' :: '/' :: (nomeName ++ '>' :: post)) = none :=
        matchOpenTag_slash (nomeName ++ '>' :: post) (by decide)
      rw [hsl] at hr
      cases hr
    · exact absurd (h4.sublist.subset (List.mem_cons_self _ _)) hB1

theorem afterOpen_nome_empty {post : List Char} (hpost : '<' ∉ post) :
    afterOpen nomeName 60 ('<' :: '/' :: (nomeName ++ '>' :: post)) = none := by
  have hB : '<' ∉ '/' :: (nomeName ++ '>' :: post) := by
    intro hm
    rcases List.mem_cons.mp hm with hm | hm
    · cases hm
    · rcases List.mem_append.mp hm with hm | hm
      · exact absurd hm (by decide)
      · rcases List.mem_cons.mp hm with hm | hm
        · cases hm
        · exact hpost hm
  unfold afterOpen
  rw [show wsLen ('<' :: '/' :: (nomeName ++ '>' :: post)) = 0 from rfl]
  show tryGroup nomeName 60 ('<' :: '/' :: (nomeName ++ '>' :: post)) = none
  apply tryGroup_none
  intro n h1 _ _
  obtain ⟨m, rfl⟩ : ∃ m, n = m + 1 := ⟨n - 1, by omega⟩
  rw [List.drop_succ_cons]
  apply closeAfterWS_no_lt
  intro hm
  exact hB ((List.drop_suffix m _).sublist.subset hm)

theorem afterOpen_nome_long_aux {sp mid tsp post2 : List Char} {d e : Char}
    {mid1 mid2 : List Char}
    (hmidh : mid = d :: mid1) (hd : isSpc d = false)
    (hmide : mid = mid2 ++ [e]) (he : isSpc e = false)
    (hlen : 60 < mid.length)
    (hcont : '<' ∉ sp ++ (mid ++ tsp)) :
    afterOpen nomeName 60
      ((sp ++ (mid ++ tsp)) ++ '<' :: '/' :: (nomeName ++ '>' :: post2)) =
      none := by
  have hconlen : (sp ++ (mid ++ tsp)).length =
      sp.length + mid.length + tsp.length := by
    simp [List.length_append]
    omega
  have hkey : ∀ q, q < sp.length + mid.length →
      closeAfterWS nomeName
        (((sp ++ (mid ++ tsp)) ++
          '<' :: '/' :: (nomeName ++ '>' :: post2)).drop q) = false := by
    intro q hq
    have hqlen : q ≤ (sp ++ (mid ++ tsp)).length := by omega
    rw [List.drop_append_of_le_length hqlen]
    have hidx : (sp ++ (mid ++ tsp))[sp.length + mid2.length]? = some e := by
      rw [List.getElem?_append_right (by omega)]
      rw [show sp.length + mid2.length - sp.length = mid2.length by omega]
      have hm2 : mid2.length < mid.length := by rw [hmide]; simp
      rw [List.getElem?_append_left (by omega)]
      rw [hmide]
      exact List.getElem?_concat_length mid2 e
    have hmidlen : mid.length = mid2.length + 1 := by rw [hmide]; simp
    have hmem : e ∈ (sp ++ (mid ++ tsp)).drop q := by
      have h5 : ((sp ++ (mid ++ tsp)).drop q)[sp.length + mid2.length - q]? =
          some e := by
        rw [List.getElem?_drop]
        rw [show q + (sp.length + mid2.length - q) = sp.length + mid2.length by
          omega]
        exact hidx
      exact List.getElem?_mem h5
    obtain ⟨dd, u2, hsk, hdd, hddm⟩ :=
      skipWS_append_exists (v := '<' :: '/' :: (nomeName ++ '>' :: post2))
        ⟨e, hmem, he⟩
    unfold closeAfterWS
    rw [hsk]
    have hddlt : ¬dd = '<' := fun hlt =>
      hcont (hlt ▸ (List.drop_suffix q _).sublist.subset hddm)
    rw [matchCloseTag_ne_head _ hddlt]
    rfl
  unfold afterOpen
  apply tryFromWS_none
  intro k hk
  apply tryGroup_none
  intro n h1n hn60 _
  rw [List.drop_drop]
  apply hkey
  have hws : wsLen ((sp ++ (mid ++ tsp)) ++
      '<' :: '/' :: (nomeName ++ '>' :: post2)) ≤ sp.length := by
    have hshape : (sp ++ (mid ++ tsp)) ++
        '<' :: '/' :: (nomeName ++ '>' :: post2) =
        sp ++ d :: (mid1 ++ (tsp ++ '<' :: '/' :: (nomeName ++ '>' :: post2))) := by
      rw [hmidh]
      simp [List.append_assoc]
    rw [hshape]
    exact wsLen_append_head hd sp _
  omega

theorem afterOpen_nome_long {content : List Char} (post2 : List Char)
    (hcont : '<' ∉ content) (hlen : 60 < (trimWS content).length) :
    afterOpen nomeName 60
      (content ++ '<' :: '/' :: (nomeName ++ '>' :: post2)) = none := by
  have hL : content.dropWhile (fun c => isSpc c) =
      trimWS content ++
        ((content.dropWhile (fun c => isSpc c)).reverse.takeWhile
          (fun c => isSpc c)).reverse := by
    have h1 := List.takeWhile_append_dropWhile (p := fun c => isSpc c)
      (l := (content.dropWhile (fun c => isSpc c)).reverse)
    have h2 := congrArg List.reverse h1
    rw [List.reverse_append, List.reverse_reverse] at h2
    exact h2.symm
  have hdecomp : content = content.takeWhile (fun c => isSpc c) ++
      (trimWS content ++
        ((content.dropWhile (fun c => isSpc c)).reverse.takeWhile
          (fun c => isSpc c)).reverse) := by
    conv_lhs => rw [← List.takeWhile_append_dropWhile (fun c => isSpc c) content]
    exact congrArg (fun z => List.takeWhile (fun c => isSpc c) content ++ z) hL
  obtain ⟨d, mid1, hmidh⟩ : ∃ d m, trimWS content = d :: m := by
    cases hm : trimWS content with
    | nil => rw [hm] at hlen; simp at hlen
    | cons a b => exact ⟨a, b, rfl⟩
  have hd : isSpc d = false := by
    have h3 : content.dropWhile (fun c => isSpc c) = d ::
        (mid1 ++ ((content.dropWhile (fun c => isSpc c)).reverse.takeWhile
          (fun c => isSpc c)).reverse) := by
      conv_lhs => rw [hL, hmidh]
      exact List.cons_append _ _ _
    simpa using dropWhile_head_false h3
  obtain ⟨e, midr, hmidr⟩ : ∃ e m, (trimWS content).reverse = e :: m := by
    cases hm : (trimWS content).reverse with
    | nil =>
      have : trimWS content = [] := by
        have := congrArg List.reverse hm
        simpa using this
      rw [this] at hlen
      simp at hlen
    | cons a b => exact ⟨a, b, rfl⟩
  have he : isSpc e = false := by
    have h4 : (content.dropWhile (fun c => isSpc c)).reverse.dropWhile
        (fun c => isSpc c) = e :: midr := by
      have h5 : (trimWS content).reverse =
          (content.dropWhile (fun c => isSpc c)).reverse.dropWhile
            (fun c => isSpc c) := by
        simp [trimWS]
      rw [← h5, hmidr]
    simpa using dropWhile_head_false h4
  have hmide : trimWS content = midr.reverse ++ [e] := by
    have h6 := congrArg List.reverse hmidr
    rw [List.reverse_reverse] at h6
    simpa using h6
  have hcont2 : '<' ∉ content.takeWhile (fun c => isSpc c) ++
      (trimWS content ++
        ((content.dropWhile (fun c => isSpc c)).reverse.takeWhile
          (fun c => isSpc c)).reverse) := hdecomp ▸ hcont
  rw [hdecomp]
  exact afterOpen_nome_long_aux hmidh hd hmide he hlen hcont2

/-- C10 counterexample: a name tag whose content is three spaces has empty
trimmed content, yet `regex['nome'].search` matches it (the greedy leading
`\s*` backtracks and the group captures a single space), so the decoder
uses the name `" "` and not the fallback name. -/
theorem c10_counterexample :
    trimWS "   ".data = [] ∧
    searchTag nomeName 60 (nomeBlock [] "   ".data []) = some [' '] ∧
    resolvedNome 3 "/d/invoice.xml".data (nomeBlock [] "   ".data []) = [' '] ∧
    resolvedNome 3 "/d/invoice.xml".data (nomeBlock [] "   ".data []) ≠
      splitextFst (pathSplit "/d/invoice.xml".data).2 ++ allegatoInfix ++
        natDigits 4 :=
  ⟨by decide, by decide, by decide, by decide⟩

/-- C10 (amended): a name tag with empty content (zero characters), or with
`<`-free content whose whitespace-trimmed text is longer than 60
characters, is not matched by the name search, and the decoder uses the
fallback name `<basename-without-extension>_allegato_<index>` (whitespace-
only non-empty content, by contrast, does match; see the
counterexample). -/
theorem c10_amended_name_search :
    (∀ (idx : Nat) (path pre post : List Char), '<' ∉ pre → '<' ∉ post →
        searchTag nomeName 60 (nomeBlock pre [] post) = none ∧
        resolvedNome idx path (nomeBlock pre [] post) =
          splitextFst (pathSplit path).2 ++ allegatoInfix ++
            natDigits (idx + 1)) ∧
    (∀ (idx : Nat) (path pre content post : List Char),
        '<' ∉ pre → '<' ∉ content → '<' ∉ post →
        60 < (trimWS content).length →
        searchTag nomeName 60 (nomeBlock pre content post) = none ∧
        resolvedNome idx path (nomeBlock pre content post) =
          splitextFst (pathSplit path).2 ++ allegatoInfix ++
            natDigits (idx + 1)) := by
  constructor
  · intro idx path pre post hpre hpost
    have hs : searchTag nomeName 60 (nomeBlock pre [] post) = none := by
      apply searchTag_nomeBlock_none hpre (by simp) hpost
      exact afterOpen_nome_empty hpost
    exact ⟨hs, by simp [resolvedNome, hs]⟩
  · intro idx path pre content post hpre hcont hpost hlen
    have hs := searchTag_nomeBlock_none hpre hcont hpost
      (afterOpen_nome_long post hcont hlen)
    exact ⟨hs, by simp [resolvedNome, hs]⟩

theorem c10_witness :
    (searchTag nomeName 60 (nomeBlock [] [] []) = none ∧
      resolvedNome 0 "/d/a.xml".data (nomeBlock [] [] []) =
        splitextFst (pathSplit "/d/a.xml".data).2 ++ allegatoInfix ++
          natDigits 1) ∧
    (searchTag nomeName 60 (nomeBlock [] (List.replicate 61 'x') []) = none ∧
      resolvedNome 0 "/d/a.xml".data (nomeBlock [] (List.replicate 61 'x') []) =
        splitextFst (pathSplit "/d/a.xml".data).2 ++ allegatoInfix ++
          natDigits 1) :=
  ⟨c10_amended_name_search.1 0 "/d/a.xml".data [] [] (by decide) (by decide),
   c10_amended_name_search.2 0 "/d/a.xml".data [] (List.replicate 61 'x') []
     (by decide) (by decide) (by decide) (by decide)⟩
